import Mathlib

/-!
# State-Machine Visualizer core: shallow embedding

A shallow embedding of the core of the State-Machine-Visualizer repository:
the parser/validator (`src/lib/parser.ts`), the graph analyzer
(`src/lib/analyzer.ts`), the simulation engine (`src/lib/simulation.ts`),
the diagnostics reporter (`src/lib/diagnostics.ts`), the session serializer
and the facade, together with proofs about them.

Modelling conventions:
* JavaScript `Map` objects are modelled as association lists
  (`List (String × α)`): `Map.set` replaces the value in place when the key
  exists and appends otherwise, `Map` iteration order is insertion order.
* JavaScript `Set` objects are modelled as lists with membership-guarded
  append (insertion order, no duplicates).
* JavaScript objects that come from `JSON.parse` have unique keys; where a
  proof needs this fact about an input object it is an explicit hypothesis.
* `unknown` input values are modelled by the inductive `ParseInput`: either
  a non-object value or a structured `MachineDefinition` candidate whose
  `initial` / `states` fields are `Option`s (absent-or-wrongly-typed is
  `none`, mirroring the parser's `typeof` checks).
* Exceptions (`throw new ParserError(...)`) are modelled with `Except`.
* The two loops that JavaScript runs by unbounded recursion / while-loops
  (BFS reachability, DFS cycle detection) take an explicit fuel argument
  that provably dominates the number of iterations the JavaScript code
  performs (for BFS this is certified by the proved soundness and
  completeness theorems, which would be unprovable were the fuel short).
-/

/-! ## Association-list maps (JavaScript `Map`) and sets (JavaScript `Set`) -/

/-- `Map.get` on an association list: first binding wins (there is at most
one binding per key in all maps built below). -/
def lookupA {α : Type} : List (String × α) → String → Option α
  | [], _ => none
  | (k, v) :: rest, key => if k = key then some v else lookupA rest key

/-- `Map.set` on an association list: replace in place if the key exists,
append otherwise (JavaScript `Map` insertion-order semantics). -/
def mapSet {α : Type} : List (String × α) → String → α → List (String × α)
  | [], k, v => [(k, v)]
  | (k', v') :: rest, k, v =>
      if k' = k then (k', v) :: rest else (k', v') :: mapSet rest k v

/-- The keys of an association list, in iteration order. -/
def keysOf {α : Type} (m : List (String × α)) : List String := m.map Prod.fst

/-- `Set.add`: append if absent, keep insertion order. -/
def setAdd (l : List String) (x : String) : List String :=
  if x ∈ l then l else l ++ [x]

/-! ## Data model (`engine-types.ts`, `types.ts`) -/

/-- `'initial' | 'final' | 'default'` state kinds. -/
inductive NodeType
  | initial
  | final
  | default
deriving DecidableEq, Repr

/-- Node metadata (`meta: Record<string, any>`), modelled as string-valued
open records. -/
abbrev MetaMap := List (String × String)

/-- `InternalTransition` from `engine-types.ts`. -/
structure InternalTransition where
  source : String
  target : String
  event : String
  cond : Option String
  actions : List String
deriving DecidableEq, Repr

/-- `InternalStateNode` from `engine-types.ts`. -/
structure InternalStateNode where
  id : String
  type : NodeType
  meta : MetaMap
  transitions : List (String × InternalTransition)
  outgoing : List InternalTransition
deriving DecidableEq, Repr

/-- `StateMachineGraph` from `engine-types.ts`. -/
structure StateMachineGraph where
  id : String
  initial : String
  nodes : List (String × InternalStateNode)
deriving DecidableEq, Repr

/-! ## Parser input model (`types.ts`) -/

/-- `string | TransitionConfig`: the raw form of one transition. -/
inductive TransitionDef
  | str (target : String)
  | obj (target : String) (cond : Option String) (actions : Option (List String))
deriving DecidableEq, Repr

/-- `StateDefinition` from `types.ts`; `none` models an absent (or falsy)
field. The `on` field is spelled `on_` because `on` is reserved in Lean. -/
structure RawStateDef where
  on_ : Option (List (String × TransitionDef))
  type : Option NodeType
  meta : Option MetaMap
deriving DecidableEq, Repr

/-- `MachineDefinition` from `types.ts`, as the parser sees it before
validation: `initial` is `none` when absent or not a string, `states` is
`none` when absent or not an object. -/
structure MachineDefinition where
  id : Option String
  initial : Option String
  states : Option (List (String × RawStateDef))
deriving DecidableEq, Repr

/-- The `unknown` argument of `parseMachine`: either not an object at all
(`null`, a number, ...) or an object read as a `MachineDefinition`. -/
inductive ParseInput
  | nonObject
  | obj (m : MachineDefinition)
deriving DecidableEq, Repr

/-! ## Parser (`parser.ts`) -/

/-- The three `ParserError` codes. -/
inductive PECode
  | INVALID_SCHEMA
  | INVALID_REFERENCE
  | MISSING_INITIAL
deriving DecidableEq, Repr

/-- The string the TypeScript union value serializes to. -/
def PECode.str : PECode → String
  | .INVALID_SCHEMA => "INVALID_SCHEMA"
  | .INVALID_REFERENCE => "INVALID_REFERENCE"
  | .MISSING_INITIAL => "MISSING_INITIAL"

/-- `ParserError` (`parser.ts`): `details` is also the inherited `message`. -/
structure ParserError where
  code : PECode
  details : String
  path : Option (List String)
deriving DecidableEq, Repr

/-- `normalizeTransition` (`parser.ts`): a bare string target expands to a
transition with an empty action list; `actions: targetDef.actions || []`. -/
def normalizeTransition (targetDef : TransitionDef) (sourceId : String)
    (event : String) : InternalTransition :=
  match targetDef with
  | .str target =>
      { source := sourceId, target := target, event := event,
        cond := none, actions := [] }
  | .obj target cond actions =>
      { source := sourceId, target := target, event := event,
        cond := cond, actions := actions.getD [] }

/-- Pass 1 of `parseMachine`: create one node per `states` entry. -/
def mkNode (id : String) (def_ : RawStateDef) : InternalStateNode :=
  { id := id, type := def_.type.getD .default, meta := def_.meta.getD [],
    transitions := [], outgoing := [] }

/-- One iteration of the inner edge loop of pass 2 of `parseMachine`:
normalize, validate the target against the node map, then
`transitions.set` / `outgoing.push`. -/
def addEdge (ns : List (String × InternalStateNode)) (id : String)
    (n : InternalStateNode) (p : String × TransitionDef) :
    Except ParserError InternalStateNode :=
  let t := normalizeTransition p.2 id p.1
  if (lookupA ns t.target).isSome then
    .ok { n with transitions := mapSet n.transitions p.1 t,
                 outgoing := n.outgoing ++ [t] }
  else
    .error { code := .INVALID_REFERENCE,
             details := "State '" ++ id ++ "' transitions to unknown target '"
               ++ t.target ++ "' on event '" ++ p.1 ++ "'.",
             path := some ["states", id, "on", p.1] }

/-- Pass 2 of `parseMachine` for one `states` entry: look the node up, walk
its `on` entries (skipped when `on` is absent), write the node back. -/
def processState (ns : List (String × InternalStateNode)) (id : String)
    (def_ : RawStateDef) : Except ParserError (List (String × InternalStateNode)) :=
  match lookupA ns id with
  | none => .ok ns
  | some node =>
      match def_.on_ with
      | none => .ok ns
      | some onList => do
          let node' ← onList.foldlM (addEdge ns id) node
          .ok (mapSet ns id node')

/-- `parseMachine` (`parser.ts`): schema checks in source order, pass 1
(vertices), initial-state validation, pass 2 (edges). -/
def parseMachine (input : ParseInput) : Except ParserError StateMachineGraph :=
  match input with
  | .nonObject =>
      .error { code := .INVALID_SCHEMA, details := "Input must be an object.",
               path := none }
  | .obj m =>
      match m.initial with
      | none =>
          .error { code := .MISSING_INITIAL,
                   details := "Machine must define an 'initial' state ID.",
                   path := none }
      | some initial =>
          match m.states with
          | none =>
              .error { code := .INVALID_SCHEMA,
                       details := "Machine must define a 'states' object.",
                       path := none }
          | some statesList =>
              let gid := match m.id with
                | some s => if s = "" then "crypto-machine" else s
                | none => "crypto-machine"
              let nodes0 := statesList.foldl
                (fun ns p => mapSet ns p.1 (mkNode p.1 p.2)) []
              if (lookupA nodes0 initial).isSome then do
                let nodes ← statesList.foldlM
                  (fun ns p => processState ns p.1 p.2) nodes0
                .ok { id := gid, initial := initial, nodes := nodes }
              else
                .error { code := .INVALID_REFERENCE,
                         details := "Initial state '" ++ initial
                           ++ "' is not defined in 'states'.",
                         path := some ["initial"] }

/-! ## Analyzer (`analyzer.ts`) -/

/-- `AnalysisResult` from `analyzer.ts`; the `Set`s keep insertion order as
lists, each cycle is the extracted path slice (read as a set of ids). -/
structure AnalysisResult where
  reachable : List String
  orphans : List String
  deadEnds : List String
  cycles : List (List String)
  nondeterministic : List (String × List String)
deriving DecidableEq, Repr

/-- The inner `for (const transition of node.outgoing)` loop of the BFS:
freshly reached targets are appended to the reachable set and the queue. -/
def bfsVisitList (ts : List InternalTransition)
    (acc : List String × List String) : List String × List String :=
  match ts with
  | [] => acc
  | t :: rest =>
      if t.target ∈ acc.1 then bfsVisitList rest acc
      else bfsVisitList rest (acc.1 ++ [t.target], acc.2 ++ [t.target])

/-- The `while (queue.length > 0)` loop of `analyzeReachability`, with
explicit fuel (each iteration dequeues one id; a node is enqueued at most
once, so `1 + #edges` iterations always suffice). -/
def bfsLoop (g : StateMachineGraph) :
    Nat → List String → List String → List String
  | _, reachable, [] => reachable
  | 0, reachable, _ :: _ => reachable
  | fuel + 1, reachable, id :: rest =>
      match lookupA g.nodes id with
      | none => bfsLoop g fuel reachable rest
      | some node =>
          let acc := bfsVisitList node.outgoing (reachable, rest)
          bfsLoop g fuel acc.1 acc.2

/-- All transition targets occurring in the graph (with multiplicity); its
length bounds the number of BFS enqueues after the initial one. -/
def allTargets (g : StateMachineGraph) : List String :=
  (g.nodes.map (fun p => p.2.outgoing.map (fun t => t.target))).flatten

/-- `analyzeReachability` (`analyzer.ts`): BFS from `graph.initial`;
orphans are all node ids not in the reachable set, in key order. -/
def analyzeReachability (g : StateMachineGraph) : List String × List String :=
  let reachable := bfsLoop g (1 + (allTargets g).length) [g.initial] [g.initial]
  let orphans := (keysOf g.nodes).filter (fun id => decide (id ∉ reachable))
  (reachable, orphans)

/-- `analyzeDeadEnds` (`analyzer.ts`): reachable, non-final nodes with no
outgoing edges, in node iteration order. -/
def analyzeDeadEnds (g : StateMachineGraph) (reachable : List String) :
    List String :=
  (g.nodes.filter (fun p =>
    decide (p.1 ∈ reachable) && decide (p.2.type ≠ .final)
      && p.2.outgoing.isEmpty)).map Prod.fst

/-- The mutable state of `analyzeCycles`: visited set, recursion stack,
recorded cycles. -/
structure DfsState where
  visited : List String
  rstack : List String
  cycles : List (List String)
deriving DecidableEq, Repr

/-- One iteration of the `for (const t of node.outgoing)` loop of `dfs`:
recurse (`rec`, instantiated with the dfs itself) on unvisited targets; a
visited target on the recursion stack yields one recorded cycle, the path
slice from that target's position (the stack is always a subset of the
current path, so `indexOf` finds it). -/
def dfsVisit (rec : String → List String → DfsState → DfsState)
    (pathC : List String) (st : DfsState) (t : InternalTransition) :
    DfsState :=
  if t.target ∈ st.visited then
    if t.target ∈ st.rstack then
      { st with cycles := st.cycles ++ [pathC.drop (pathC.indexOf t.target)] }
    else st
  else rec t.target pathC st

/-- One `dfs(currentId, path)` call of `analyzeCycles`: mark visited, push
on the recursion stack and the path, walk the outgoing edges, then pop.
Fuel bounds the recursion depth; every nested call targets a previously
unvisited node, so `1 + #distinct ids` levels always suffice. -/
def dfsNode (g : StateMachineGraph) : Nat → String → List String →
    DfsState → DfsState
  | 0, _, _, s => s
  | fuel + 1, currentId, path, s =>
      let s1 : DfsState :=
        { s with visited := setAdd s.visited currentId,
                 rstack := setAdd s.rstack currentId }
      let pathC := path ++ [currentId]
      let s2 :=
        match lookupA g.nodes currentId with
        | none => s1
        | some node =>
            node.outgoing.foldl (dfsVisit (dfsNode g fuel) pathC) s1
      { s2 with rstack := s2.rstack.erase currentId }

/-- Depth bound for the cycle DFS. -/
def dfsUniverse (g : StateMachineGraph) : List String :=
  g.initial :: allTargets g

/-- `analyzeCycles` (`analyzer.ts`): DFS from the initial state only. -/
def analyzeCycles (g : StateMachineGraph) : List (List String) :=
  if (lookupA g.nodes g.initial).isSome then
    (dfsNode g (1 + (dfsUniverse g).length) g.initial []
      { visited := [], rstack := [], cycles := [] }).cycles
  else []

/-- `analyzeNondeterminism` (`analyzer.ts`): structurally always empty. -/
def analyzeNondeterminism (_g : StateMachineGraph) :
    List (String × List String) := []

/-- `analyzeGraph` (`analyzer.ts`): the orchestrator. -/
def analyzeGraph (g : StateMachineGraph) : AnalysisResult :=
  let ro := analyzeReachability g
  { reachable := ro.1, orphans := ro.2,
    deadEnds := analyzeDeadEnds g ro.1,
    cycles := analyzeCycles g,
    nondeterministic := analyzeNondeterminism g }

/-- One step along an outgoing transition of the graph. -/
def stepRel (g : StateMachineGraph) (a b : String) : Prop :=
  ∃ n, lookupA g.nodes a = some n ∧ ∃ t ∈ n.outgoing, t.target = b

/-- `x` is reachable from the initial state via outgoing transitions. -/
def Reaches (g : StateMachineGraph) (x : String) : Prop :=
  Relation.ReflTransGen (stepRel g) g.initial x

/-! ## Simulation engine (`simulation.ts`) -/

/-- `SimulationState` from `simulation.ts`. -/
structure SimulationState where
  activeStateId : String
  steps : Nat
  history : List String
  log : List String
deriving DecidableEq, Repr

/-- Failure reasons of the pure transition function. -/
inductive FailReason
  | INVALID_EVENT
  | NO_TRANSITION
  | GUARD_PREVENTED
deriving DecidableEq, Repr

/-- The string the reason serializes to in log messages. -/
def FailReason.str : FailReason → String
  | .INVALID_EVENT => "INVALID_EVENT"
  | .NO_TRANSITION => "NO_TRANSITION"
  | .GUARD_PREVENTED => "GUARD_PREVENTED"

/-- `TransitionResult` from `simulation.ts`. -/
inductive TransitionResult
  | success (nextState : String) (actions : List String)
  | failure (reason : FailReason)
deriving DecidableEq, Repr

/-- The pure `transition` function (`simulation.ts`): guards are recognized
but always treated as satisfied. -/
def transition (g : StateMachineGraph) (currentStateId : String)
    (event : String) : TransitionResult :=
  match lookupA g.nodes currentStateId with
  | none => .failure .NO_TRANSITION
  | some node =>
      match lookupA node.transitions event with
      | none => .failure .INVALID_EVENT
      | some t => .success t.target t.actions

/-- The `SimulationEngine` constructor's initial state. -/
def initState (g : StateMachineGraph) : SimulationState :=
  { activeStateId := g.initial, steps := 0, history := [g.initial],
    log := [s!"Initialized at {g.initial}"] }

/-- `SimulationEngine.reset`. -/
def resetState (g : StateMachineGraph) : SimulationState :=
  { activeStateId := g.initial, steps := 0, history := [g.initial],
    log := [s!"Reset to {g.initial}"] }

/-- `SimulationEngine.send`: on success advance, append to history and log;
on failure append one log line only. -/
def sendState (g : StateMachineGraph) (st : SimulationState)
    (event : String) : SimulationState :=
  match transition g st.activeStateId event with
  | .success nextState _ =>
      { activeStateId := nextState, steps := st.steps + 1,
        history := st.history ++ [nextState],
        log := st.log ++ [s!"Event '{event}' -> Transitioned to '{nextState}'"] }
  | .failure reason =>
      let rs := reason.str
      { st with log := st.log ++ [s!"Event '{event}' -> Failed: {rs}"] }

/-- `SimulationEngine.getAvailableEvents`. -/
def availableEvents (g : StateMachineGraph) (st : SimulationState) :
    List String :=
  match lookupA g.nodes st.activeStateId with
  | none => []
  | some node => keysOf node.transitions

/-- `SimulationEngine.timeTravel`: out-of-range indices are silently
ignored; in range, revert to `history[stepIndex]` and truncate history and
log before logging the jump. -/
def timeTravelState (st : SimulationState) (stepIndex : Int) :
    SimulationState :=
  if stepIndex < 0 ∨ (st.history.length : Int) ≤ stepIndex then st
  else
    let k := stepIndex.toNat
    let targetStateId := st.history.getD k ""
    { activeStateId := targetStateId, steps := k,
      history := st.history.take (k + 1),
      log := st.log.take (k + 1) ++ [s!"Time traveled to step {k}"] }

/-! ## Session serializer (`session.ts`-style module, `src/unnamed/part_002`) -/

/-- The `simulation` block of a serialized session. -/
structure SessionSim where
  history : List String
  log : List String
  currentStep : Nat
deriving DecidableEq, Repr

/-- The `meta` block of a serialized session. -/
structure SessionMeta where
  createdAt : String
  version : String
deriving DecidableEq, Repr

/-- `SerializedSession`: the JSON document produced by `exportSession` and
consumed by `importSession`. `JSON.stringify`/`JSON.parse` round-tripping of
a well-formed document is modelled as the identity on this structure. -/
structure SerializedSession where
  machine : Option MachineDefinition
  simulation : Option SessionSim
  meta : Option SessionMeta
deriving DecidableEq, Repr

/-- JavaScript truthiness of the optional guard string (`t.cond`):
`undefined` and the empty string are falsy. -/
def condTruthy : Option String → Bool
  | none => false
  | some c => c ≠ ""

/-- Serialize one transition for `graphToJSON`: shorthand string form when
the guard is falsy and the actions are empty, full object form otherwise. -/
def serializeTransition (t : InternalTransition) : TransitionDef :=
  if condTruthy t.cond ∨ t.actions ≠ [] then
    .obj t.target t.cond (some t.actions)
  else .str t.target

/-- The state definition `graphToJSON` emits for one node: `type` and
`meta` always, `on` only when the node has transitions. -/
def nodeToStateDef (n : InternalStateNode) : RawStateDef :=
  { on_ := if n.transitions.isEmpty then none
           else some (n.transitions.map (fun p => (p.1, serializeTransition p.2))),
    type := some n.type,
    meta := some n.meta }

/-- `graphToJSON`: graph → canonical definition value (no machine id is
emitted). -/
def graphToJSON (g : StateMachineGraph) : MachineDefinition :=
  { id := none,
    initial := some g.initial,
    states := some (g.nodes.map (fun p => (p.1, nodeToStateDef p.2))) }

/-- `exportSession`: bundle the canonical definition with the simulation's
history, log and step count plus a timestamp (a parameter here, taken from
the clock in the source) and the fixed version literal. -/
def exportSession (g : StateMachineGraph) (simState : SimulationState)
    (createdAt : String) : SerializedSession :=
  { machine := some (graphToJSON g),
    simulation := some { history := simState.history, log := simState.log,
                         currentStep := simState.steps },
    meta := some { createdAt := createdAt, version := "1.0.0" } }

/-- `importSession`: require a present `machine.states`, return the
embedded definition plus history (empty when no simulation block exists);
failures are wrapped into one error string. -/
def importSession (s : SerializedSession) :
    Except String (MachineDefinition × List String) :=
  match s.machine with
  | none =>
      .error "Failed to import session: Invalid session format: Missing machine definition."
  | some m =>
      if m.states.isSome then
        .ok (m, match s.simulation with
                | some sim => sim.history
                | none => [])
      else
        .error "Failed to import session: Invalid session format: Missing machine definition."

/-! ## Diagnostics reporter (`diagnostics.ts`) -/

/-- Issue severities. -/
inductive DiagSeverity
  | error
  | warning
  | info
deriving DecidableEq, Repr

/-- Report statuses. -/
inductive ReportStatus
  | valid
  | warning
  | error
deriving DecidableEq, Repr

/-- `DiagnosticIssue` from `diagnostics.ts`. -/
structure DiagnosticIssue where
  code : String
  severity : DiagSeverity
  message : String
  path : Option (List String)
  relatedIds : Option (List String)
deriving DecidableEq, Repr

/-- The `metrics` block of a report. -/
structure DiagMetrics where
  totalStates : Nat
  totalTransitions : Nat
  cyclomaticComplexity : Nat
deriving DecidableEq, Repr

/-- `DiagnosticReport` from `diagnostics.ts`. -/
structure DiagnosticReport where
  status : ReportStatus
  issues : List DiagnosticIssue
  summary : String
  metrics : DiagMetrics
deriving DecidableEq, Repr

/-- `generateReport` (`diagnostics.ts`): one warning per orphan, one
warning per dead end, one info per cycle; status from the worst severity;
metrics from the graph and the cycle count. -/
def generateReport (g : StateMachineGraph) (analysis : AnalysisResult) :
    DiagnosticReport :=
  let issues : List DiagnosticIssue :=
    analysis.orphans.map (fun id =>
      { code := "UNREACHABLE_STATE", severity := .warning,
        message := "State '" ++ id ++ "' is not reachable from the initial state.",
        path := some ["states", id], relatedIds := some [id] })
    ++ analysis.deadEnds.map (fun id =>
      { code := "DEAD_END", severity := .warning,
        message := "State '" ++ id ++ "' is a dead end (not final, no transitions).",
        path := some ["states", id], relatedIds := some [id] })
    ++ analysis.cycles.map (fun cycle =>
      { code := "CYCLE_DETECTED", severity := .info,
        message := "Cycle detected: " ++ String.intercalate " -> " cycle,
        path := none, relatedIds := some cycle })
  let transitionCount := (g.nodes.map (fun p => p.2.outgoing.length)).sum
  let hasError := issues.any (fun i => i.severity == .error)
  let hasWarning := issues.any (fun i => i.severity == .warning)
  let status : ReportStatus :=
    if hasError then .error else if hasWarning then .warning else .valid
  let statusWord : String :=
    match status with
    | .error => "ERROR"
    | .warning => "WARNING"
    | .valid => "VALID"
  let count := toString issues.length
  let summaryLines :=
    [s!"Analysis Complete: {statusWord}", s!"Found {count} issues."]
    ++ (if analysis.orphans.length > 0 then
          [s!"- {analysis.orphans.length} unreachable states."] else [])
    ++ (if analysis.deadEnds.length > 0 then
          [s!"- {analysis.deadEnds.length} dead-end states."] else [])
    ++ (if analysis.cycles.length > 0 then
          [s!"- {analysis.cycles.length} cycles detected."] else [])
  { status := status, issues := issues,
    summary := String.intercalate "\n" summaryLines,
    metrics := { totalStates := g.nodes.length,
                 totalTransitions := transitionCount,
                 cyclomaticComplexity := analysis.cycles.length } }

/-- `formatParserError` (`diagnostics.ts`): a parser failure as a report of
one error issue and zero metrics. -/
def formatParserError (e : ParserError) : DiagnosticReport :=
  { status := .error,
    issues := [{ code := e.code.str, severity := .error, message := e.details,
                 path := e.path, relatedIds := none }],
    summary := s!"Fatal Error: {e.details}",
    metrics := { totalStates := 0, totalTransitions := 0,
                 cyclomaticComplexity := 0 } }

/-! ## Facade (`StateMachineAPI`, `src/unnamed/part_000`) -/

/-- The four owned fields of `StateMachineAPI`; the simulator is its
`SimulationState` (its graph is the facade's `graph` field). -/
structure APIState where
  graph : Option StateMachineGraph
  simulator : Option SimulationState
  lastAnalysis : Option AnalysisResult
  lastParserError : Option ParserError
deriving DecidableEq, Repr

/-- The facade before any load. -/
def apiInit : APIState :=
  { graph := none, simulator := none, lastAnalysis := none,
    lastParserError := none }

/-- `StateMachineAPI.loadMachine`: parse, build a fresh engine, analyze; on
failure clear all three owned values, capture the error and re-raise it
(the raised error is the second component). -/
def loadMachine (_api : APIState) (input : ParseInput) :
    APIState × Except ParserError Unit :=
  match parseMachine input with
  | .ok g =>
      ({ graph := some g, simulator := some (initState g),
         lastAnalysis := some (analyzeGraph g), lastParserError := none },
       .ok ())
  | .error e =>
      ({ graph := none, simulator := none, lastAnalysis := none,
         lastParserError := some e },
       .error e)

/-- `StateMachineAPI.getDiagnostics`: prefer a captured parser error, then
the graph-based report, else the "no machine" error report. -/
def getDiagnostics (api : APIState) : DiagnosticReport :=
  match api.lastParserError with
  | some e => formatParserError e
  | none =>
      match api.graph, api.lastAnalysis with
      | some g, some a => generateReport g a
      | _, _ =>
          { status := .error, issues := [], summary := "No machine loaded",
            metrics := { totalStates := 0, totalTransitions := 0,
                         cyclomaticComplexity := 0 } }

/-- `StateMachineAPI.getGraph`. -/
def getGraph (api : APIState) : Option StateMachineGraph := api.graph

/-- `StateMachineAPI.getSimulationState` (a value snapshot). -/
def getSimulationState (api : APIState) : Option SimulationState :=
  api.simulator

/-! ## Well-formedness predicates and sample machines -/

/-- Structural invariants of graphs returned by `parseMachine`: unique node
keys, a present initial node, and per node: unique transition events, the
`outgoing` list mirroring the transition table, and every stored transition
carrying its event key, its source id and an existing target. -/
structure GraphWF (g : StateMachineGraph) : Prop where
  keysNodup : (keysOf g.nodes).Nodup
  initialMem : g.initial ∈ keysOf g.nodes
  nodesOk : ∀ p ∈ g.nodes,
    (keysOf p.2.transitions).Nodup ∧
    p.2.outgoing = p.2.transitions.map Prod.snd ∧
    ∀ q ∈ p.2.transitions, q.2.event = q.1 ∧ q.2.source = p.1 ∧
      q.2.target ∈ keysOf g.nodes

/-- JavaScript objects (the output of `JSON.parse`) cannot repeat keys;
this predicate states that fact about a parser input's `states` object and
each state's `on` object. It is an artifact of modelling objects as
association lists, not an extra restriction on the source's inputs. -/
def InputWF : ParseInput → Prop
  | .nonObject => True
  | .obj m =>
      match m.states with
      | none => True
      | some sts => (sts.map Prod.fst).Nodup ∧
          ∀ p ∈ sts, (((p.2.on_.getD []).map Prod.fst)).Nodup

/-- Per-node well-formedness relative to a key universe: unique transition
events, `outgoing` mirroring the transition table, and each transition
carrying its event key, its source id and an existing target. -/
def NodeWF (keys : List String) (id : String) (n : InternalStateNode) : Prop :=
  (keysOf n.transitions).Nodup ∧
  n.outgoing = n.transitions.map Prod.snd ∧
  ∀ q ∈ n.transitions, q.2.event = q.1 ∧ q.2.source = id ∧ q.2.target ∈ keys

/-- The node that reparsing the serialized form of a well-formed node
produces: every transition makes the round trip through
`serializeTransition` and `normalizeTransition`. -/
def reparsedNode (id : String) (n : InternalStateNode) : InternalStateNode :=
  { id := id, type := n.type, meta := n.meta,
    transitions := n.transitions.map (fun q =>
      (q.1, normalizeTransition (serializeTransition q.2) id q.1)),
    outgoing := n.transitions.map (fun q =>
      normalizeTransition (serializeTransition q.2) id q.1) }

/-- The graph that reparsing `graphToJSON g` produces. -/
def reparsedGraph (g : StateMachineGraph) : StateMachineGraph :=
  { id := "crypto-machine", initial := g.initial,
    nodes := g.nodes.map (fun p => (p.1, reparsedNode p.1 p.2)) }

/-- The spec's reachability example
`{initial:"A", states:{A:{on:{NEXT:"B"}}, B:{}, C:{}}}`. -/
def sampleReachInput : ParseInput :=
  .obj { id := none, initial := some "A",
         states := some [
           ("A", { on_ := some [("NEXT", .str "B")], type := none, meta := none }),
           ("B", { on_ := none, type := none, meta := none }),
           ("C", { on_ := none, type := none, meta := none })] }

/-- The spec's cycle example
`{initial:"A", states:{A:{on:{NEXT:"B"}}, B:{on:{BACK:"A"}}}}`. -/
def sampleCycleInput : ParseInput :=
  .obj { id := none, initial := some "A",
         states := some [
           ("A", { on_ := some [("NEXT", .str "B")], type := none, meta := none }),
           ("B", { on_ := some [("BACK", .str "A")], type := none, meta := none })] }

/-- The graph `parseMachine` returns on `sampleReachInput` (checked by
`rfl` in the C1 witness). -/
def sampleReachGraph : StateMachineGraph :=
  { id := "crypto-machine", initial := "A",
    nodes := [
      ("A", ⟨"A", .default, [], [("NEXT", ⟨"A", "B", "NEXT", none, []⟩)],
             [⟨"A", "B", "NEXT", none, []⟩]⟩),
      ("B", ⟨"B", .default, [], [], []⟩),
      ("C", ⟨"C", .default, [], [], []⟩)] }

/-- The graph `parseMachine` returns on `sampleCycleInput` (checked by
`rfl` in the C5 witness). -/
def sampleCycleGraph : StateMachineGraph :=
  { id := "crypto-machine", initial := "A",
    nodes := [
      ("A", ⟨"A", .default, [], [("NEXT", ⟨"A", "B", "NEXT", none, []⟩)],
             [⟨"A", "B", "NEXT", none, []⟩]⟩),
      ("B", ⟨"B", .default, [], [("BACK", ⟨"B", "A", "BACK", none, []⟩)],
             [⟨"B", "A", "BACK", none, []⟩]⟩)] }

/-! ## Simulation claims -/

/-- The documented invariant `history.length = steps + 1`. -/
def historyInvariant (st : SimulationState) : Prop :=
  st.history.length = st.steps + 1

/-- Claim C2: sending an event that has no entry in the active node's
transition table never raises (`sendState` is total by construction),
leaves `activeStateId`, `steps` and `history` unchanged, and appends
exactly one log line of the form `Event '<event>' -> Failed: <reason>`. -/
theorem send_unknown_event_logs_only (g : StateMachineGraph)
    (st : SimulationState) (event : String)
    (h : ∀ n, lookupA g.nodes st.activeStateId = some n →
      lookupA n.transitions event = none) :
    (sendState g st event).activeStateId = st.activeStateId ∧
    (sendState g st event).steps = st.steps ∧
    (sendState g st event).history = st.history ∧
    ∃ rs, (rs = "INVALID_EVENT" ∨ rs = "NO_TRANSITION") ∧
      (sendState g st event).log = st.log ++ [s!"Event '{event}' -> Failed: {rs}"] := by
  have ht : transition g st.activeStateId event = .failure .INVALID_EVENT ∨
      transition g st.activeStateId event = .failure .NO_TRANSITION := by
    cases hn : lookupA g.nodes st.activeStateId with
    | none => simp [transition, hn]
    | some node => simp [transition, hn, h node hn]
  rcases ht with ht | ht <;> unfold sendState <;> rw [ht]
  · exact ⟨rfl, rfl, rfl, "INVALID_EVENT", Or.inl rfl, rfl⟩
  · exact ⟨rfl, rfl, rfl, "NO_TRANSITION", Or.inr rfl, rfl⟩

/-- Witness for C2 on a one-node machine and an unknown event. -/
theorem send_unknown_event_logs_only_witness :
    let g : StateMachineGraph :=
      { id := "m", initial := "A",
        nodes := [("A", { id := "A", type := .default, meta := [],
                          transitions := [], outgoing := [] })] }
    (sendState g (initState g) "NOPE").activeStateId = (initState g).activeStateId ∧
    (sendState g (initState g) "NOPE").steps = (initState g).steps ∧
    (sendState g (initState g) "NOPE").history = (initState g).history ∧
    ∃ rs, (rs = "INVALID_EVENT" ∨ rs = "NO_TRANSITION") ∧
      (sendState g (initState g) "NOPE").log =
        (initState g).log ++ [s!"Event 'NOPE' -> Failed: {rs}"] := by
  exact send_unknown_event_logs_only _ _ "NOPE"
    (fun n hn => by cases hn; rfl)

/-- Claim C3: out-of-range `timeTravel` indices (`-1` and
`history.length`) leave the state unchanged; an in-range index `k` reverts
the active state to `history[k]`, sets `steps = k`, truncates history and
log to `k + 1` entries and appends one `Time traveled to step <k>` line. -/
theorem timeTravel_spec (st : SimulationState) :
    timeTravelState st (-1) = st ∧
    timeTravelState st (st.history.length : Int) = st ∧
    ∀ k : Nat, ∀ hk : k < st.history.length,
      timeTravelState st (k : Int) =
        { activeStateId := st.history.get ⟨k, hk⟩,
          steps := k,
          history := st.history.take (k + 1),
          log := st.log.take (k + 1) ++ [s!"Time traveled to step {k}"] } ∧
      (timeTravelState st (k : Int)).history.length = k + 1 := by
  refine ⟨?_, ?_, ?_⟩
  · simp [timeTravelState]
  · simp [timeTravelState]
  · intro k hk
    have hcond : ¬((k : Int) < 0 ∨ (st.history.length : Int) ≤ (k : Int)) := by
      push_neg
      constructor
      · positivity
      · exact_mod_cast hk
    have hget : st.history.getD k "" = st.history.get ⟨k, hk⟩ := by
      simp [List.getD_eq_getElem?_getD, List.getElem?_eq_getElem hk]
    constructor
    · simp only [timeTravelState, if_neg hcond, Int.toNat_ofNat]
      rw [hget]
    · simp only [timeTravelState, if_neg hcond, Int.toNat_ofNat]
      simp [List.length_take]
      omega

/-- Witness for C3 at a concrete two-entry history. -/
theorem timeTravel_spec_witness :
    let st : SimulationState :=
      { activeStateId := "B", steps := 1, history := ["A", "B"],
        log := ["Initialized at A", "Event 'GO' -> Transitioned to 'B'"] }
    timeTravelState st (0 : Nat) =
      { activeStateId := "A", steps := 0, history := ["A"],
        log := ["Initialized at A", "Time traveled to step 0"] } := by
  intro st
  have h := (timeTravel_spec st).2.2 0 (by decide)
  rw [h.1]
  rfl

/-- Claim C4: `history.length = steps + 1` holds after construction and is
preserved by `send` (success or failure), `reset`, and `timeTravel`
(in-range or out-of-range). -/
theorem history_invariant_preserved (g : StateMachineGraph)
    (st : SimulationState) (event : String) (i : Int)
    (h : historyInvariant st) :
    historyInvariant (initState g) ∧
    historyInvariant (resetState g) ∧
    historyInvariant (sendState g st event) ∧
    historyInvariant (timeTravelState st i) := by
  refine ⟨rfl, rfl, ?_, ?_⟩
  · unfold sendState
    cases transition g st.activeStateId event with
    | success nextState actions =>
        simp [historyInvariant] at h ⊢
        omega
    | failure reason => exact h
  · by_cases hc : i < 0 ∨ (st.history.length : Int) ≤ i
    · unfold timeTravelState
      rw [if_pos hc]
      exact h
    · have hc' := hc
      push_neg at hc'
      have hlt : i.toNat < st.history.length := by omega
      unfold timeTravelState historyInvariant
      rw [if_neg hc]
      simp [List.length_take]
      omega

/-- Witness for C4 on a fresh engine over a one-node machine. -/
theorem history_invariant_preserved_witness :
    let g : StateMachineGraph :=
      { id := "m", initial := "A",
        nodes := [("A", { id := "A", type := .default, meta := [],
                          transitions := [], outgoing := [] })] }
    historyInvariant (initState g) ∧
    historyInvariant (resetState g) ∧
    historyInvariant (sendState g (initState g) "E") ∧
    historyInvariant (timeTravelState (initState g) 0) :=
  history_invariant_preserved _ (initState _) "E" 0 rfl

/-! ## Serializer claims -/

/-- Claim C7: importing an exported session recovers the canonical machine
definition (`graphToJSON g`) and the simulation history at export time. -/
theorem import_export_roundtrip (g : StateMachineGraph)
    (simState : SimulationState) (createdAt : String) :
    importSession (exportSession g simState createdAt) =
      .ok (graphToJSON g, simState.history) := rfl

/-! ## Diagnostics claims -/

/-- Claim C10: `generateReport` emits only warning- and info-severity
issues, so its status is `valid` or `warning`, never `error`. -/
theorem generateReport_never_error (g : StateMachineGraph)
    (analysis : AnalysisResult) :
    (∀ i ∈ (generateReport g analysis).issues,
      i.severity = .warning ∨ i.severity = .info) ∧
    ((generateReport g analysis).status = .valid ∨
      (generateReport g analysis).status = .warning) := by
  have hsev : ∀ i ∈ (generateReport g analysis).issues,
      i.severity = .warning ∨ i.severity = .info := by
    intro i hi
    simp only [generateReport, List.mem_append, List.mem_map] at hi
    rcases hi with (⟨id, _, rfl⟩ | ⟨id, _, rfl⟩) | ⟨c, _, rfl⟩
    · exact Or.inl rfl
    · exact Or.inl rfl
    · exact Or.inr rfl
  refine ⟨hsev, ?_⟩
  have hany : (generateReport g analysis).issues.any
      (fun i => i.severity == DiagSeverity.error) = false := by
    rw [List.any_eq_false]
    intro i hi
    rcases hsev i hi with hs | hs <;> simp [hs]
  have hstat : (generateReport g analysis).status =
      (if (generateReport g analysis).issues.any
            (fun i => i.severity == DiagSeverity.error) then ReportStatus.error
       else if (generateReport g analysis).issues.any
            (fun i => i.severity == DiagSeverity.warning) then ReportStatus.warning
       else ReportStatus.valid) := rfl
  rw [hstat, hany]
  by_cases hw : (generateReport g analysis).issues.any
      (fun i => i.severity == DiagSeverity.warning)
  · rw [if_neg (by simp), if_pos hw]
    exact Or.inr rfl
  · rw [if_neg (by simp), if_neg hw]
    exact Or.inl rfl

/-- Witness for C10 at a concrete graph and analysis (one orphan issue). -/
theorem generateReport_never_error_witness :
    let g : StateMachineGraph :=
      { id := "m", initial := "A",
        nodes := [("A", { id := "A", type := .default, meta := [],
                          transitions := [], outgoing := [] })] }
    let a : AnalysisResult :=
      { reachable := ["A"], orphans := ["C"], deadEnds := [], cycles := [],
        nondeterministic := [] }
    (∀ i ∈ (generateReport g a).issues,
      i.severity = .warning ∨ i.severity = .info) ∧
    ((generateReport g a).status = .valid ∨
      (generateReport g a).status = .warning) :=
  generateReport_never_error _ _

/-! ## Facade claims -/

/-- Claim C9: when parsing fails, `loadMachine` clears the graph, the
simulator and the last analysis together, re-raises the parser error, and
captures it so that `getDiagnostics` returns the parser-error report: one
error-severity issue carrying that error's code, and zero metrics. -/
theorem loadMachine_failure_clears_and_reports (api : APIState)
    (input : ParseInput) (e : ParserError)
    (h : parseMachine input = .error e) :
    getGraph (loadMachine api input).1 = none ∧
    getSimulationState (loadMachine api input).1 = none ∧
    (loadMachine api input).1.lastAnalysis = none ∧
    (loadMachine api input).2 = .error e ∧
    getDiagnostics (loadMachine api input).1 = formatParserError e ∧
    (getDiagnostics (loadMachine api input).1).status = .error ∧
    (getDiagnostics (loadMachine api input).1).issues =
      [{ code := e.code.str, severity := .error, message := e.details,
         path := e.path, relatedIds := none }] ∧
    (getDiagnostics (loadMachine api input).1).metrics =
      { totalStates := 0, totalTransitions := 0, cyclomaticComplexity := 0 } := by
  unfold loadMachine
  rw [h]
  exact ⟨rfl, rfl, rfl, rfl, rfl, rfl, rfl, rfl⟩

/-- Witness for C9 with a non-object input. -/
theorem loadMachine_failure_clears_and_reports_witness :
    getGraph (loadMachine apiInit .nonObject).1 = none ∧
    getSimulationState (loadMachine apiInit .nonObject).1 = none ∧
    (loadMachine apiInit .nonObject).1.lastAnalysis = none ∧
    (loadMachine apiInit .nonObject).2 =
      .error { code := .INVALID_SCHEMA, details := "Input must be an object.",
               path := none } ∧
    getDiagnostics (loadMachine apiInit .nonObject).1 =
      formatParserError { code := .INVALID_SCHEMA,
                          details := "Input must be an object.", path := none } ∧
    (getDiagnostics (loadMachine apiInit .nonObject).1).status = .error ∧
    (getDiagnostics (loadMachine apiInit .nonObject).1).issues =
      [{ code := PECode.INVALID_SCHEMA.str, severity := .error,
         message := "Input must be an object.", path := none,
         relatedIds := none }] ∧
    (getDiagnostics (loadMachine apiInit .nonObject).1).metrics =
      { totalStates := 0, totalTransitions := 0, cyclomaticComplexity := 0 } :=
  loadMachine_failure_clears_and_reports apiInit .nonObject _ rfl

/-! ## Association-list lemmas -/

theorem lookupA_cons {α : Type} (a : String) (b : α)
    (rest : List (String × α)) (k : String) :
    lookupA ((a, b) :: rest) k = if a = k then some b else lookupA rest k := rfl

theorem lookupA_isSome_iff {α : Type} (m : List (String × α)) (k : String) :
    (lookupA m k).isSome ↔ k ∈ keysOf m := by
  induction m with
  | nil => simp [lookupA, keysOf]
  | cons p rest ih =>
      obtain ⟨a, b⟩ := p
      by_cases h : a = k
      · subst h
        simp [lookupA_cons, keysOf]
      · simp [lookupA_cons, h, keysOf, ih, Ne.symm h]

theorem lookupA_eq_none_iff {α : Type} (m : List (String × α)) (k : String) :
    lookupA m k = none ↔ k ∉ keysOf m := by
  rw [← lookupA_isSome_iff, Option.isSome_iff_ne_none]
  tauto

theorem lookupA_mem {α : Type} {m : List (String × α)} {k : String} {v : α}
    (h : lookupA m k = some v) : (k, v) ∈ m := by
  induction m with
  | nil => simp [lookupA] at h
  | cons p rest ih =>
      obtain ⟨a, b⟩ := p
      rw [lookupA_cons] at h
      by_cases ha : a = k
      · subst ha
        rw [if_pos rfl] at h
        cases h
        exact List.mem_cons_self _ _
      · rw [if_neg ha] at h
        exact List.mem_cons_of_mem _ (ih h)

theorem lookupA_mapSet_self {α : Type} (m : List (String × α)) (k : String)
    (v : α) : lookupA (mapSet m k v) k = some v := by
  induction m with
  | nil => simp [mapSet, lookupA_cons]
  | cons p rest ih =>
      obtain ⟨a, b⟩ := p
      by_cases h : a = k
      · subst h
        simp [mapSet, lookupA_cons]
      · simp [mapSet, h, lookupA_cons, ih]

theorem lookupA_mapSet_ne {α : Type} (m : List (String × α)) (k a : String)
    (v : α) (h : a ≠ k) : lookupA (mapSet m k v) a = lookupA m a := by
  induction m with
  | nil => simp [mapSet, lookupA_cons, lookupA, Ne.symm h]
  | cons p rest ih =>
      obtain ⟨x, y⟩ := p
      by_cases hx : x = k
      · subst hx
        have hxa : ¬x = a := fun hh => h hh.symm
        simp [mapSet, lookupA_cons, hxa]
      · simp [mapSet, hx, lookupA_cons, ih]

theorem keysOf_mapSet {α : Type} (m : List (String × α)) (k : String) (v : α) :
    keysOf (mapSet m k v) =
      if k ∈ keysOf m then keysOf m else keysOf m ++ [k] := by
  induction m with
  | nil => simp [mapSet, keysOf]
  | cons p rest ih =>
      obtain ⟨a, b⟩ := p
      by_cases h : a = k
      · subst h
        simp [mapSet, keysOf]
      · have hstep : mapSet ((a, b) :: rest) k v = (a, b) :: mapSet rest k v := by
          simp [mapSet, h]
        have hkeys : ∀ t : List (String × α), keysOf ((a, b) :: t) = a :: keysOf t :=
          fun t => rfl
        simp only [hstep, hkeys, ih]
        by_cases hk : k ∈ keysOf rest
        · rw [if_pos hk, if_pos (by simp [hk])]
        · rw [if_neg hk, if_neg (by simp [hk, Ne.symm h]), List.cons_append]

theorem mem_keysOf_mapSet {α : Type} (m : List (String × α)) (k a : String)
    (v : α) : a ∈ keysOf (mapSet m k v) ↔ a ∈ keysOf m ∨ a = k := by
  rw [keysOf_mapSet]
  by_cases h : k ∈ keysOf m
  · rw [if_pos h]
    constructor
    · exact Or.inl
    · rintro (ha | rfl)
      · exact ha
      · exact h
  · rw [if_neg h]
    simp

theorem nodup_keysOf_mapSet {α : Type} (m : List (String × α)) (k : String)
    (v : α) (h : (keysOf m).Nodup) : (keysOf (mapSet m k v)).Nodup := by
  rw [keysOf_mapSet]
  by_cases hk : k ∈ keysOf m
  · rwa [if_pos hk]
  · rw [if_neg hk]
    simp [List.nodup_append, h, hk]

theorem mem_mapSet_elim {α : Type} {m : List (String × α)} {k : String}
    {v : α} {p : String × α} (h : p ∈ mapSet m k v) :
    p = (k, v) ∨ p ∈ m := by
  induction m with
  | nil => simpa [mapSet] using h
  | cons q rest ih =>
      obtain ⟨a, b⟩ := q
      by_cases ha : a = k
      · subst ha
        simp [mapSet] at h
        rcases h with h | h
        · exact Or.inl (by simp [h])
        · exact Or.inr (List.mem_cons_of_mem _ h)
      · simp [mapSet, ha] at h
        rcases h with h | h
        · exact Or.inr (by simp [h])
        · rcases ih h with h' | h'
          · exact Or.inl h'
          · exact Or.inr (List.mem_cons_of_mem _ h')

theorem mapSet_eq_append {α : Type} (m : List (String × α)) (k : String)
    (v : α) (h : k ∉ keysOf m) : mapSet m k v = m ++ [(k, v)] := by
  induction m with
  | nil => simp [mapSet]
  | cons p rest ih =>
      obtain ⟨a, b⟩ := p
      simp [keysOf] at h
      simp [mapSet, h.1, ih (by simpa [keysOf] using h.2)]
      intro ha
      exact absurd ha.symm h.1

theorem lookupA_append {α : Type} (m1 m2 : List (String × α)) (k : String) :
    lookupA (m1 ++ m2) k =
      match lookupA m1 k with
      | some v => some v
      | none => lookupA m2 k := by
  induction m1 with
  | nil => simp [lookupA]
  | cons p rest ih =>
      obtain ⟨a, b⟩ := p
      by_cases h : a = k
      · subst h
        simp [lookupA_cons]
      · simp [lookupA_cons, h, ih]

/-! ## Pass-1 fold lemmas -/

theorem mem_keysOf_pass1 {β : Type} (f : String × β → InternalStateNode)
    (l : List (String × β)) (ns0 : List (String × InternalStateNode))
    (k : String) :
    k ∈ keysOf (l.foldl (fun ns p => mapSet ns p.1 (f p)) ns0) ↔
      k ∈ keysOf ns0 ∨ k ∈ l.map Prod.fst := by
  induction l generalizing ns0 with
  | nil => simp
  | cons p rest ih =>
      simp only [List.foldl_cons, ih, mem_keysOf_mapSet, List.map_cons,
        List.mem_cons]
      tauto

theorem nodup_keysOf_pass1 {β : Type} (f : String × β → InternalStateNode)
    (l : List (String × β)) (ns0 : List (String × InternalStateNode))
    (h : (keysOf ns0).Nodup) :
    (keysOf (l.foldl (fun ns p => mapSet ns p.1 (f p)) ns0)).Nodup := by
  induction l generalizing ns0 with
  | nil => exact h
  | cons p rest ih =>
      exact ih _ (nodup_keysOf_mapSet _ _ _ h)

theorem mem_pass1_elim {β : Type} (f : String × β → InternalStateNode)
    (l : List (String × β)) (ns0 : List (String × InternalStateNode))
    (p : String × InternalStateNode)
    (h : p ∈ l.foldl (fun ns q => mapSet ns q.1 (f q)) ns0) :
    p ∈ ns0 ∨ ∃ q ∈ l, p = (q.1, f q) := by
  induction l generalizing ns0 with
  | nil => exact Or.inl h
  | cons q rest ih =>
      rcases ih _ h with h' | ⟨r, hr, rfl⟩
      · rcases mem_mapSet_elim h' with h'' | h''
        · exact Or.inr ⟨q, List.mem_cons_self _ _, by simp [h'']⟩
        · exact Or.inl h''
      · exact Or.inr ⟨r, List.mem_cons_of_mem _ hr, rfl⟩

theorem pass1_eq_append {β : Type} (f : String × β → InternalStateNode)
    (l : List (String × β)) (ns0 : List (String × InternalStateNode))
    (hnd : (l.map Prod.fst).Nodup)
    (hdisj : ∀ k ∈ l.map Prod.fst, k ∉ keysOf ns0) :
    l.foldl (fun ns q => mapSet ns q.1 (f q)) ns0 =
      ns0 ++ l.map (fun q => (q.1, f q)) := by
  induction l generalizing ns0 with
  | nil => simp
  | cons q rest ih =>
      simp only [List.foldl_cons, List.map_cons]
      rw [mapSet_eq_append _ _ _ (hdisj q.1 (by simp))]
      rw [ih _ (by simpa using hnd.of_cons)]
      · simp
      · intro k hk
        simp only [keysOf, List.map_append, List.mem_append] at *
        rintro (hk0 | hk1)
        · exact hdisj k (by simp [hk]) (by simpa [keysOf] using hk0)
        · simp at hk1
          rcases List.mem_map.mp hk with ⟨r, hr, rfl⟩
          have := (List.nodup_cons.mp hnd).1
          exact this (hk1 ▸ List.mem_map_of_mem Prod.fst hr)

/-! ## Parser error-shape lemmas (claim C6) -/

theorem except_error_bind {ε α β : Type} (e : ε) (f : α → Except ε β) :
    (Except.error e >>= f) = Except.error e := rfl

theorem except_ok_bind {ε α β : Type} (a : α) (f : α → Except ε β) :
    (Except.ok a >>= f) = f a := rfl

theorem addEdge_error_shape {ns : List (String × InternalStateNode)}
    {id : String} {n : InternalStateNode} {p : String × TransitionDef}
    {e : ParserError} (h : addEdge ns id n p = .error e) :
    e.code = .INVALID_REFERENCE ∧ e.path = some ["states", id, "on", p.1] := by
  unfold addEdge at h
  by_cases hc : (lookupA ns (normalizeTransition p.2 id p.1).target).isSome
  · simp [hc] at h
  · simp [hc] at h
    rw [← h]
    exact ⟨rfl, rfl⟩

theorem edgeFold_error_shape {ns : List (String × InternalStateNode)}
    {id : String} {e : ParserError} :
    ∀ (onList : List (String × TransitionDef)) (n : InternalStateNode),
    onList.foldlM (addEdge ns id) n = .error e →
    e.code = .INVALID_REFERENCE ∧ ∃ ev, e.path = some ["states", id, "on", ev] := by
  intro onList
  induction onList with
  | nil => intro n h; exact Except.noConfusion h
  | cons p rest ih =>
      intro n h
      rw [List.foldlM_cons] at h
      cases ha : addEdge ns id n p with
      | error e' =>
          rw [ha, except_error_bind] at h
          cases h
          exact ⟨(addEdge_error_shape ha).1, p.1, (addEdge_error_shape ha).2⟩
      | ok n' =>
          rw [ha, except_ok_bind] at h
          exact ih n' h

theorem processState_error_shape {ns : List (String × InternalStateNode)}
    {id : String} {d : RawStateDef} {e : ParserError}
    (h : processState ns id d = .error e) :
    e.code = .INVALID_REFERENCE ∧ ∃ ev, e.path = some ["states", id, "on", ev] := by
  cases hn : lookupA ns id with
  | none =>
      simp only [processState, hn] at h
      exact Except.noConfusion h
  | some node =>
      cases ho : d.on_ with
      | none =>
          simp only [processState, hn, ho] at h
          exact Except.noConfusion h
      | some onList =>
          simp only [processState, hn, ho] at h
          cases hf : onList.foldlM (addEdge ns id) node with
          | error e' =>
              rw [hf, except_error_bind] at h
              cases h
              exact edgeFold_error_shape onList node hf
          | ok node' =>
              rw [hf, except_ok_bind] at h
              cases h

theorem statesFold_error_shape {e : ParserError} :
    ∀ (sts : List (String × RawStateDef))
      (ns0 : List (String × InternalStateNode)),
    sts.foldlM (fun ns p => processState ns p.1 p.2) ns0 = .error e →
    e.code = .INVALID_REFERENCE ∧
      ∃ id ev, e.path = some ["states", id, "on", ev] := by
  intro sts
  induction sts with
  | nil => intro ns0 h; exact Except.noConfusion h
  | cons p rest ih =>
      intro ns0 h
      rw [List.foldlM_cons] at h
      cases hp : processState ns0 p.1 p.2 with
      | error e' =>
          rw [hp, except_error_bind] at h
          cases h
          obtain ⟨hc, ev, hpath⟩ := processState_error_shape hp
          exact ⟨hc, p.1, ev, hpath⟩
      | ok ns1 =>
          rw [hp, except_ok_bind] at h
          exact ih ns1 h

/-- Counterexample to claim C6 as stated: `parseMachine` of a non-object
input raises an `INVALID_SCHEMA` error that carries no path at all. -/
theorem parseMachine_schema_error_has_no_path :
    parseMachine .nonObject =
      .error { code := .INVALID_SCHEMA, details := "Input must be an object.",
               path := none } := rfl

/-- Claim C6, amended: every error raised by `parseMachine` is one of
`INVALID_SCHEMA` (input not an object, or `states` missing),
`MISSING_INITIAL` (`initial` not a string), or `INVALID_REFERENCE`
(initial id or a transition target absent from `states`); but only the
`INVALID_REFERENCE` errors carry a path (`["initial"]` or
`["states", id, "on", event]`) — `INVALID_SCHEMA` and `MISSING_INITIAL`
errors carry none. -/
theorem parseMachine_error_kinds (input : ParseInput) (e : ParserError)
    (h : parseMachine input = .error e) :
    (e.code = .INVALID_SCHEMA ∧ e.path = none ∧
      (input = .nonObject ∨
        ∃ m, input = .obj m ∧ m.initial.isSome ∧ m.states = none)) ∨
    (e.code = .MISSING_INITIAL ∧ e.path = none ∧
      ∃ m, input = .obj m ∧ m.initial = none) ∨
    (e.code = .INVALID_REFERENCE ∧
      ((e.path = some ["initial"] ∧
        ∃ m initial sts, input = .obj m ∧ m.initial = some initial ∧
          m.states = some sts ∧ initial ∉ sts.map Prod.fst) ∨
       ∃ id ev, e.path = some ["states", id, "on", ev])) := by
  cases input with
  | nonObject =>
      cases h
      exact Or.inl ⟨rfl, rfl, Or.inl rfl⟩
  | obj m =>
      cases hi : m.initial with
      | none =>
          simp only [parseMachine, hi] at h
          cases h
          exact Or.inr (Or.inl ⟨rfl, rfl, m, rfl, hi⟩)
      | some initial =>
          cases hs : m.states with
          | none =>
              simp only [parseMachine, hi, hs] at h
              cases h
              exact Or.inl ⟨rfl, rfl, Or.inr ⟨m, rfl, by simp [hi], hs⟩⟩
          | some sts =>
              simp only [parseMachine, hi, hs] at h
              by_cases hc : (lookupA
                  (sts.foldl (fun ns p => mapSet ns p.1 (mkNode p.1 p.2)) [])
                  initial).isSome
              · rw [if_pos hc] at h
                cases hf : sts.foldlM
                    (fun ns p => processState ns p.1 p.2)
                    (sts.foldl (fun ns p => mapSet ns p.1 (mkNode p.1 p.2)) []) with
                | error e' =>
                    rw [hf, except_error_bind] at h
                    cases h
                    obtain ⟨hcode, id, ev, hpath⟩ := statesFold_error_shape sts _ hf
                    exact Or.inr (Or.inr ⟨hcode, Or.inr ⟨id, ev, hpath⟩⟩)
                | ok nodes =>
                    rw [hf, except_ok_bind] at h
                    cases h
              · rw [if_neg hc] at h
                cases h
                refine Or.inr (Or.inr ⟨rfl, Or.inl ⟨rfl, m, initial, sts, rfl, hi, hs, ?_⟩⟩)
                intro hmem
                apply hc
                rw [lookupA_isSome_iff]
                rw [mem_keysOf_pass1]
                exact Or.inr hmem

/-- Witness for the amended C6 at a machine with a broken transition
target. -/
theorem parseMachine_error_kinds_witness :
    let badInput : ParseInput :=
      .obj { id := none, initial := some "a",
             states := some [("a", { on_ := some [("GO", .str "b")],
                                     type := none, meta := none })] }
    ∀ e, parseMachine badInput = .error e →
    (e.code = .INVALID_SCHEMA ∧ e.path = none ∧
      (badInput = .nonObject ∨
        ∃ m, badInput = .obj m ∧ m.initial.isSome ∧ m.states = none)) ∨
    (e.code = .MISSING_INITIAL ∧ e.path = none ∧
      ∃ m, badInput = .obj m ∧ m.initial = none) ∨
    (e.code = .INVALID_REFERENCE ∧
      ((e.path = some ["initial"] ∧
        ∃ m initial sts, badInput = .obj m ∧ m.initial = some initial ∧
          m.states = some sts ∧ initial ∉ sts.map Prod.fst) ∨
       ∃ id ev, e.path = some ["states", id, "on", ev])) :=
  fun e h => parseMachine_error_kinds _ e h

/-! ## Parser success-inversion lemmas -/

theorem processState_ok_keys {ns : List (String × InternalStateNode)}
    {id : String} {d : RawStateDef} {ns' : List (String × InternalStateNode)}
    (h : processState ns id d = .ok ns') : keysOf ns' = keysOf ns := by
  cases hn : lookupA ns id with
  | none =>
      simp only [processState, hn] at h
      cases h
      rfl
  | some node =>
      cases ho : d.on_ with
      | none =>
          simp only [processState, hn, ho] at h
          cases h
          rfl
      | some onList =>
          simp only [processState, hn, ho] at h
          cases hf : onList.foldlM (addEdge ns id) node with
          | error e => rw [hf, except_error_bind] at h; cases h
          | ok node' =>
              rw [hf, except_ok_bind] at h
              cases h
              rw [keysOf_mapSet, if_pos]
              exact (lookupA_isSome_iff ns id).mp (by rw [hn]; rfl)

theorem statesFold_ok_keys :
    ∀ (sts : List (String × RawStateDef))
      (ns0 ns' : List (String × InternalStateNode)),
    sts.foldlM (fun ns p => processState ns p.1 p.2) ns0 = .ok ns' →
    keysOf ns' = keysOf ns0 := by
  intro sts
  induction sts with
  | nil =>
      intro ns0 ns' h
      cases h
      rfl
  | cons p rest ih =>
      intro ns0 ns' h
      rw [List.foldlM_cons] at h
      cases hp : processState ns0 p.1 p.2 with
      | error e => rw [hp, except_error_bind] at h; cases h
      | ok ns1 =>
          rw [hp, except_ok_bind] at h
          rw [ih ns1 ns' h, processState_ok_keys hp]

theorem parseMachine_ok_inv {input : ParseInput} {g : StateMachineGraph}
    (h : parseMachine input = .ok g) :
    ∃ m initial sts,
      input = .obj m ∧ m.initial = some initial ∧ m.states = some sts ∧
      g.initial = initial ∧
      (lookupA (sts.foldl (fun ns p => mapSet ns p.1 (mkNode p.1 p.2)) [])
        initial).isSome ∧
      sts.foldlM (fun ns p => processState ns p.1 p.2)
        (sts.foldl (fun ns p => mapSet ns p.1 (mkNode p.1 p.2)) []) =
        .ok g.nodes := by
  cases input with
  | nonObject => cases h
  | obj m =>
      cases hi : m.initial with
      | none =>
          simp only [parseMachine, hi] at h
          exact Except.noConfusion h
      | some initial =>
          cases hs : m.states with
          | none =>
              simp only [parseMachine, hi, hs] at h
              exact Except.noConfusion h
          | some sts =>
              simp only [parseMachine, hi, hs] at h
              by_cases hc : (lookupA
                  (sts.foldl (fun ns p => mapSet ns p.1 (mkNode p.1 p.2)) [])
                  initial).isSome
              · rw [if_pos hc] at h
                cases hf : sts.foldlM
                    (fun ns p => processState ns p.1 p.2)
                    (sts.foldl (fun ns p => mapSet ns p.1 (mkNode p.1 p.2)) []) with
                | error e => rw [hf, except_error_bind] at h; cases h
                | ok nodes =>
                    rw [hf, except_ok_bind] at h
                    cases h
                    exact ⟨m, initial, sts, rfl, hi, hs, rfl, hc, hf⟩
              · rw [if_neg hc] at h
                cases h

theorem parsed_keysNodup {input : ParseInput} {g : StateMachineGraph}
    (h : parseMachine input = .ok g) : (keysOf g.nodes).Nodup := by
  obtain ⟨m, initial, sts, _, _, _, _, _, hfold⟩ := parseMachine_ok_inv h
  rw [statesFold_ok_keys sts _ _ hfold]
  exact nodup_keysOf_pass1 _ sts [] (by simp [keysOf])

theorem parsed_initial_mem {input : ParseInput} {g : StateMachineGraph}
    (h : parseMachine input = .ok g) : g.initial ∈ keysOf g.nodes := by
  obtain ⟨m, initial, sts, _, _, _, hginit, hc, hfold⟩ := parseMachine_ok_inv h
  rw [statesFold_ok_keys sts _ _ hfold, hginit]
  exact (lookupA_isSome_iff _ _).mp hc

theorem mem_iff_lookupA {α : Type} {m : List (String × α)}
    (hnd : (keysOf m).Nodup) (k : String) (v : α) :
    (k, v) ∈ m ↔ lookupA m k = some v := by
  constructor
  · intro hmem
    induction m with
    | nil => cases hmem
    | cons p rest ih =>
        obtain ⟨a, b⟩ := p
        rcases List.mem_cons.mp hmem with heq | hrest
        · cases heq
          simp [lookupA_cons]
        · have hk : k ∈ keysOf rest := by
            rw [keysOf]
            exact List.mem_map_of_mem Prod.fst hrest
          have ha : a ≠ k := by
            intro hak
            exact (List.nodup_cons.mp hnd).1 (hak ▸ hk)
          rw [lookupA_cons, if_neg ha]
          exact ih (List.nodup_cons.mp hnd).2 hrest
  · exact lookupA_mem

/-! ## BFS reachability correctness (claim C1) -/

theorem bfsVisitList_eq :
    ∀ (ts : List InternalTransition) (r q : List String),
    ∃ δ : List String,
      bfsVisitList ts (r, q) = (r ++ δ, q ++ δ) ∧
      δ.Nodup ∧
      (∀ x ∈ δ, x ∉ r) ∧
      (∀ x ∈ δ, x ∈ ts.map (fun t => t.target)) ∧
      (∀ t ∈ ts, t.target ∈ r ++ δ) := by
  intro ts
  induction ts with
  | nil =>
      intro r q
      exact ⟨[], by simp [bfsVisitList], List.nodup_nil, by simp, by simp, by simp⟩
  | cons t rest ih =>
      intro r q
      by_cases hmem : t.target ∈ r
      · obtain ⟨δ, heq, hnd, hnotr, htgt, hall⟩ := ih r q
        refine ⟨δ, ?_, hnd, hnotr, ?_, ?_⟩
        · simp only [bfsVisitList]
          rw [if_pos hmem]
          exact heq
        · intro x hx
          simp only [List.map_cons, List.mem_cons]
          exact Or.inr (htgt x hx)
        · intro t' ht'
          rcases List.mem_cons.mp ht' with rfl | ht''
          · exact List.mem_append_left _ hmem
          · exact hall t' ht''
      · obtain ⟨δ, heq, hnd, hnotr, htgt, hall⟩ :=
          ih (r ++ [t.target]) (q ++ [t.target])
        refine ⟨t.target :: δ, ?_, ?_, ?_, ?_, ?_⟩
        · simp only [bfsVisitList]
          rw [if_neg hmem, heq]
          simp
        · refine List.nodup_cons.mpr ⟨fun hx => (hnotr _ hx) (by simp), hnd⟩
        · intro x hx
          rcases List.mem_cons.mp hx with rfl | hx'
          · exact hmem
          · intro hxr
            exact hnotr x hx' (List.mem_append_left _ hxr)
        · intro x hx
          rcases List.mem_cons.mp hx with rfl | hx'
          · simp
          · simp only [List.map_cons, List.mem_cons]
            exact Or.inr (htgt x hx')
        · intro t' ht'
          rcases List.mem_cons.mp ht' with rfl | ht''
          · simp
          · have h1 := hall t' ht''
            simpa [List.append_assoc] using h1

theorem bfsLoop_sound (g : StateMachineGraph) (P : String → Prop)
    (hP : ∀ x n, P x → lookupA g.nodes x = some n →
      ∀ t ∈ n.outgoing, P t.target) :
    ∀ (fuel : Nat) (r q : List String),
    (∀ x ∈ r, P x) → (∀ x ∈ q, x ∈ r) →
    ∀ x ∈ bfsLoop g fuel r q, P x := by
  intro fuel
  induction fuel with
  | zero =>
      intro r q hr hq x hx
      cases q with
      | nil => exact hr x hx
      | cons a rest => exact hr x hx
  | succ fuel ih =>
      intro r q hr hq x hx
      cases q with
      | nil => exact hr x hx
      | cons id rest =>
          cases hn : lookupA g.nodes id with
          | none =>
              simp only [bfsLoop, hn] at hx
              exact ih r rest hr
                (fun y hy => hq y (List.mem_cons_of_mem _ hy)) x hx
          | some node =>
              obtain ⟨δ, heq, hnd', hnotr, htgt, hall⟩ :=
                bfsVisitList_eq node.outgoing r rest
              simp only [bfsLoop, hn, heq] at hx
              have hPid : P id := hr id (hq id (List.mem_cons_self _ _))
              refine ih (r ++ δ) (rest ++ δ) ?_ ?_ x hx
              · intro y hy
                rcases List.mem_append.mp hy with hy' | hy'
                · exact hr y hy'
                · obtain ⟨t, ht, rfl⟩ := List.mem_map.mp (htgt y hy')
                  exact hP id node hPid hn t ht
              · intro y hy
                rcases List.mem_append.mp hy with hy' | hy'
                · exact List.mem_append_left _ (hq y (List.mem_cons_of_mem _ hy'))
                · exact List.mem_append_right _ hy'

theorem bfsLoop_closed (g : StateMachineGraph) :
    ∀ (fuel : Nat) (r q : List String),
    q.Nodup →
    (∀ x ∈ q, x ∈ r) →
    (∀ x ∈ r, x ∉ q → ∀ n, lookupA g.nodes x = some n →
      ∀ t ∈ n.outgoing, t.target ∈ r) →
    q.length + ((allTargets g).toFinset \ r.toFinset).card ≤ fuel →
    (∀ x ∈ r, x ∈ bfsLoop g fuel r q) ∧
    (∀ x ∈ bfsLoop g fuel r q, ∀ n, lookupA g.nodes x = some n →
      ∀ t ∈ n.outgoing, t.target ∈ bfsLoop g fuel r q) := by
  intro fuel
  induction fuel with
  | zero =>
      intro r q hnd hqr hclosed hfuel
      cases q with
      | nil =>
          refine ⟨fun x hx => hx, fun x hx n hn t ht => ?_⟩
          exact hclosed x hx (by simp) n hn t ht
      | cons a rest => simp at hfuel
  | succ fuel ih =>
      intro r q hnd hqr hclosed hfuel
      cases q with
      | nil =>
          refine ⟨fun x hx => hx, fun x hx n hn t ht => ?_⟩
          exact hclosed x hx (by simp) n hn t ht
      | cons id rest =>
          cases hn : lookupA g.nodes id with
          | none =>
              have hres := ih r rest hnd.of_cons
                (fun x hx => hqr x (List.mem_cons_of_mem _ hx))
                ?_ ?_
              · simp only [bfsLoop, hn]
                exact hres
              · intro x hx hxrest n hn' t ht
                by_cases hxid : x = id
                · subst hxid
                  rw [hn] at hn'
                  cases hn'
                · exact hclosed x hx (by simp [hxid, hxrest]) n hn' t ht
              · simp only [List.length_cons] at hfuel
                omega
          | some node =>
              obtain ⟨δ, heq, hndδ, hnotr, htgt, hall⟩ :=
                bfsVisitList_eq node.outgoing r rest
              have hδT : ∀ x ∈ δ, x ∈ allTargets g := by
                intro x hx
                have hpair := lookupA_mem hn
                unfold allTargets
                rw [List.mem_flatten]
                exact ⟨node.outgoing.map (fun t => t.target),
                  List.mem_map_of_mem _ hpair, htgt x hx⟩
              have hsub : δ.toFinset ⊆ (allTargets g).toFinset \ r.toFinset := by
                intro x hx
                rw [List.mem_toFinset] at hx
                rw [Finset.mem_sdiff, List.mem_toFinset, List.mem_toFinset]
                exact ⟨hδT x hx, hnotr x hx⟩
              have hset : (allTargets g).toFinset \ (r ++ δ).toFinset =
                  ((allTargets g).toFinset \ r.toFinset) \ δ.toFinset := by
                ext a
                simp only [Finset.mem_sdiff, List.mem_toFinset, List.mem_append]
                tauto
              have hcard : ((allTargets g).toFinset \ (r ++ δ).toFinset).card =
                  ((allTargets g).toFinset \ r.toFinset).card - δ.length := by
                rw [hset, Finset.card_sdiff hsub, List.toFinset_card_of_nodup hndδ]
              have hlen : δ.length ≤ ((allTargets g).toFinset \ r.toFinset).card := by
                rw [← List.toFinset_card_of_nodup hndδ]
                exact Finset.card_le_card hsub
              have hdisj : rest.Disjoint δ := by
                intro x hx hx'
                exact hnotr x hx' (hqr x (List.mem_cons_of_mem _ hx))
              have hres := ih (r ++ δ) (rest ++ δ)
                (List.Nodup.append hnd.of_cons hndδ hdisj)
                ?_ ?_ ?_
              · simp only [bfsLoop, hn, heq]
                refine ⟨fun x hx => hres.1 x (List.mem_append_left _ hx), hres.2⟩
              · intro x hx
                rcases List.mem_append.mp hx with hx' | hx'
                · exact List.mem_append_left _ (hqr x (List.mem_cons_of_mem _ hx'))
                · exact List.mem_append_right _ hx'
              · intro x hx hxq n hn' t ht
                rcases List.mem_append.mp hx with hx' | hx'
                · by_cases hxid : x = id
                  · subst hxid
                    rw [hn] at hn'
                    cases hn'
                    exact hall t ht
                  · have hxrest : x ∉ rest := fun hc =>
                      hxq (List.mem_append_left _ hc)
                    exact List.mem_append_left _
                      (hclosed x hx' (by simp [hxid, hxrest]) n hn' t ht)
                · exact absurd (List.mem_append_right rest hx') hxq
              · simp only [List.length_append, List.length_cons] at hfuel ⊢
                rw [hcard]
                omega

/-- The BFS reachable set of `analyzeReachability` is exactly the set of
ids reachable from the initial state. -/
theorem analyzeReachability_reachable_iff (g : StateMachineGraph)
    (x : String) : x ∈ (analyzeReachability g).1 ↔ Reaches g x := by
  constructor
  · intro hx
    refine bfsLoop_sound g (Reaches g) ?_ (1 + (allTargets g).length)
      [g.initial] [g.initial] ?_ ?_ x hx
    · intro y n hy hn t ht
      exact Relation.ReflTransGen.tail hy ⟨n, hn, t, ht, rfl⟩
    · intro y hy
      rcases List.mem_singleton.mp hy with rfl
      exact Relation.ReflTransGen.refl
    · intro y hy
      exact hy
  · intro hx
    have hcl := bfsLoop_closed g (1 + (allTargets g).length)
      [g.initial] [g.initial] (List.nodup_singleton _) (fun y hy => hy)
      (fun y hy hny => absurd hy hny) ?_
    · induction hx with
      | refl => exact hcl.1 g.initial (by simp)
      | tail hab hbc ih =>
          obtain ⟨n, hn, t, ht, rfl⟩ := hbc
          exact hcl.2 _ ih n hn t ht
    · have hle : ((allTargets g).toFinset \ [g.initial].toFinset).card ≤
          (allTargets g).length :=
        le_trans (Finset.card_le_card Finset.sdiff_subset)
          (List.toFinset_card_le _)
      simp only [List.length_singleton]
      omega

theorem analyzeGraph_orphans_iff (g : StateMachineGraph) (x : String) :
    x ∈ (analyzeGraph g).orphans ↔ x ∈ keysOf g.nodes ∧ ¬Reaches g x := by
  have hdef : (analyzeGraph g).orphans =
      (keysOf g.nodes).filter
        (fun id => decide (id ∉ (analyzeReachability g).1)) := rfl
  rw [hdef, List.mem_filter]
  simp only [decide_eq_true_eq, analyzeReachability_reachable_iff]

theorem analyzeGraph_deadEnds_iff (g : StateMachineGraph)
    (hnd : (keysOf g.nodes).Nodup) (x : String) :
    x ∈ (analyzeGraph g).deadEnds ↔
      ∃ n, lookupA g.nodes x = some n ∧ Reaches g x ∧
        n.type ≠ .final ∧ n.outgoing = [] := by
  have hdef : (analyzeGraph g).deadEnds =
      analyzeDeadEnds g (analyzeReachability g).1 := rfl
  rw [hdef]
  unfold analyzeDeadEnds
  rw [List.mem_map]
  constructor
  · rintro ⟨⟨a, n⟩, hp, rfl⟩
    rw [List.mem_filter] at hp
    obtain ⟨hpm, hcond⟩ := hp
    simp only [Bool.and_eq_true, decide_eq_true_eq,
      List.isEmpty_iff] at hcond
    refine ⟨n, (mem_iff_lookupA hnd a n).mp hpm, ?_, hcond.1.2, hcond.2⟩
    exact (analyzeReachability_reachable_iff g a).mp hcond.1.1
  · rintro ⟨n, hn, hreach, htype, hout⟩
    refine ⟨(x, n), ?_, rfl⟩
    rw [List.mem_filter]
    refine ⟨lookupA_mem hn, ?_⟩
    simp only [Bool.and_eq_true, decide_eq_true_eq, List.isEmpty_iff]
    exact ⟨⟨(analyzeReachability_reachable_iff g x).mpr hreach, htype⟩, hout⟩

/-- Claim C1: for every graph returned by `parseMachine`, `analyzeGraph`
computes: `reachable` = exactly the ids reachable from the initial state
along outgoing transitions; `orphans` = all node ids minus `reachable`;
`deadEnds` = exactly the reachable, non-final nodes with no outgoing
transitions (hence disjoint from `orphans`); and on
`{initial:"A", states:{A:{on:{NEXT:"B"}}, B:{}, C:{}}}` it returns
`reachable = {A,B}`, `orphans = {C}`, with `C` not a dead end. -/
theorem analyzeGraph_spec (input : ParseInput) (g : StateMachineGraph)
    (h : parseMachine input = .ok g) :
    (∀ x, x ∈ (analyzeGraph g).reachable ↔ Reaches g x) ∧
    (∀ x, x ∈ (analyzeGraph g).orphans ↔
      x ∈ keysOf g.nodes ∧ ¬Reaches g x) ∧
    (∀ x, x ∈ (analyzeGraph g).deadEnds ↔
      ∃ n, lookupA g.nodes x = some n ∧ Reaches g x ∧
        n.type ≠ .final ∧ n.outgoing = []) ∧
    (∀ x ∈ (analyzeGraph g).deadEnds, x ∉ (analyzeGraph g).orphans) ∧
    parseMachine sampleReachInput = .ok sampleReachGraph ∧
    (analyzeGraph sampleReachGraph).reachable = ["A", "B"] ∧
    (analyzeGraph sampleReachGraph).orphans = ["C"] ∧
    "C" ∉ (analyzeGraph sampleReachGraph).deadEnds := by
  have hnd := parsed_keysNodup h
  refine ⟨fun x => analyzeReachability_reachable_iff g x,
    fun x => analyzeGraph_orphans_iff g x,
    fun x => analyzeGraph_deadEnds_iff g hnd x, ?_, rfl, rfl, rfl, ?_⟩
  · intro x hx
    obtain ⟨n, _, hreach, _, _⟩ :=
      (analyzeGraph_deadEnds_iff g hnd x).mp hx
    intro hor
    exact ((analyzeGraph_orphans_iff g x).mp hor).2 hreach
  · decide

/-- Witness for C1 at the spec's reachability example. -/
theorem analyzeGraph_spec_witness :
    ((∀ x, x ∈ (analyzeGraph sampleReachGraph).reachable ↔
        Reaches sampleReachGraph x) ∧
     (∀ x, x ∈ (analyzeGraph sampleReachGraph).orphans ↔
        x ∈ keysOf sampleReachGraph.nodes ∧ ¬Reaches sampleReachGraph x) ∧
     (∀ x, x ∈ (analyzeGraph sampleReachGraph).deadEnds ↔
        ∃ n, lookupA sampleReachGraph.nodes x = some n ∧
          Reaches sampleReachGraph x ∧ n.type ≠ .final ∧ n.outgoing = []) ∧
     (∀ x ∈ (analyzeGraph sampleReachGraph).deadEnds,
        x ∉ (analyzeGraph sampleReachGraph).orphans) ∧
     parseMachine sampleReachInput = .ok sampleReachGraph ∧
     (analyzeGraph sampleReachGraph).reachable = ["A", "B"] ∧
     (analyzeGraph sampleReachGraph).orphans = ["C"] ∧
     "C" ∉ (analyzeGraph sampleReachGraph).deadEnds) :=
  analyzeGraph_spec sampleReachInput sampleReachGraph rfl

/-! ## Cycle-detection soundness (claim C5) -/

theorem dfsFold_cycles_sound (g : StateMachineGraph)
    (rec : String → List String → DfsState → DfsState)
    (hrec : ∀ tgt pathC s, Reaches g tgt →
      (∀ x ∈ pathC, Reaches g x) →
      (∀ c ∈ s.cycles, ∀ x ∈ c, Reaches g x) →
      ∀ c ∈ (rec tgt pathC s).cycles, ∀ x ∈ c, Reaches g x) :
    ∀ (ts : List InternalTransition) (pathC : List String) (s : DfsState),
    (∀ t ∈ ts, Reaches g t.target) →
    (∀ x ∈ pathC, Reaches g x) →
    (∀ c ∈ s.cycles, ∀ x ∈ c, Reaches g x) →
    ∀ c ∈ (ts.foldl (dfsVisit rec pathC) s).cycles, ∀ x ∈ c, Reaches g x := by
  intro ts
  induction ts with
  | nil =>
      intro pathC s _ _ hcyc c hc
      exact hcyc c hc
  | cons t rest ih =>
      intro pathC s hts hpath hcyc
      rw [List.foldl_cons]
      refine ih pathC (dfsVisit rec pathC s t)
        (fun u hu => hts u (List.mem_cons_of_mem _ hu)) hpath ?_
      unfold dfsVisit
      by_cases hv : t.target ∈ s.visited
      · by_cases hr : t.target ∈ s.rstack
        · rw [if_pos hv, if_pos hr]
          intro c hc x hx
          rcases List.mem_append.mp hc with hc' | hc'
          · exact hcyc c hc' x hx
          · have hceq : c = pathC.drop (pathC.indexOf t.target) := by
              simpa using hc'
            subst hceq
            exact hpath x (List.drop_subset _ _ hx)
        · rw [if_pos hv, if_neg hr]
          exact hcyc
      · rw [if_neg hv]
        exact hrec t.target pathC s (hts t (List.mem_cons_self _ _))
          hpath hcyc

theorem dfsNode_cycles_sound (g : StateMachineGraph) :
    ∀ (fuel : Nat) (currentId : String) (path : List String) (s : DfsState),
    Reaches g currentId →
    (∀ x ∈ path, Reaches g x) →
    (∀ c ∈ s.cycles, ∀ x ∈ c, Reaches g x) →
    ∀ c ∈ (dfsNode g fuel currentId path s).cycles, ∀ x ∈ c, Reaches g x := by
  intro fuel
  induction fuel with
  | zero =>
      intro currentId path s _ _ hcyc c hc
      exact hcyc c hc
  | succ fuel ih =>
      intro currentId path s hcur hpath hcyc
      cases hn : lookupA g.nodes currentId with
      | none =>
          simp only [dfsNode, hn]
          exact hcyc
      | some node =>
          simp only [dfsNode, hn]
          refine dfsFold_cycles_sound g (dfsNode g fuel) ih node.outgoing
            (path ++ [currentId]) _ ?_ ?_ ?_
          · intro t ht
            exact Relation.ReflTransGen.tail hcur ⟨node, hn, t, ht, rfl⟩
          · intro x hx
            rcases List.mem_append.mp hx with hx' | hx'
            · exact hpath x hx'
            · rcases List.mem_singleton.mp hx' with rfl
              exact hcur
          · exact hcyc

/-- Claim C5: `analyzeCycles` never reports a cycle containing a node
unreachable from the initial state, and on
`{initial:"A", states:{A:{on:{NEXT:"B"}}, B:{on:{BACK:"A"}}}}` it reports
exactly one cycle whose member set is `{A, B}`. -/
theorem analyzeCycles_spec :
    (∀ g : StateMachineGraph, ∀ c ∈ analyzeCycles g, ∀ x ∈ c, Reaches g x) ∧
    parseMachine sampleCycleInput = .ok sampleCycleGraph ∧
    analyzeCycles sampleCycleGraph = [["A", "B"]] ∧
    (∀ c ∈ analyzeCycles sampleCycleGraph,
      ∀ x, x ∈ c ↔ x = "A" ∨ x = "B") := by
  refine ⟨?_, rfl, rfl, ?_⟩
  · intro g c hc x hx
    unfold analyzeCycles at hc
    by_cases hi : (lookupA g.nodes g.initial).isSome
    · rw [if_pos hi] at hc
      exact dfsNode_cycles_sound g _ g.initial []
        { visited := [], rstack := [], cycles := [] }
        Relation.ReflTransGen.refl (by simp) (by simp) c hc x hx
    · rw [if_neg hi] at hc
      cases hc
  · intro c hc x
    have hcy : analyzeCycles sampleCycleGraph = [["A", "B"]] := rfl
    rw [hcy] at hc
    rcases List.mem_singleton.mp hc with rfl
    simp

/-- Witness for C5: the member `B` of the reported cycle is reachable. -/
theorem analyzeCycles_spec_witness : Reaches sampleCycleGraph "B" :=
  analyzeCycles_spec.1 sampleCycleGraph ["A", "B"] (by decide) "B" (by decide)

/-! ## Parse→serialize fixpoint (claim C8) -/

theorem roundtripTransition (t : InternalTransition) (id e : String)
    (hev : t.event = e) (hsrc : t.source = id) :
    (normalizeTransition (serializeTransition t) id e).target = t.target ∧
    serializeTransition (normalizeTransition (serializeTransition t) id e) =
      serializeTransition t := by
  by_cases hc : condTruthy t.cond ∨ t.actions ≠ []
  · have hser : serializeTransition t = .obj t.target t.cond (some t.actions) := by
      unfold serializeTransition
      rw [if_pos hc]
    have hnorm : normalizeTransition
        (TransitionDef.obj t.target t.cond (some t.actions)) id e = t := by
      obtain ⟨src, tgt, ev, cond, acts⟩ := t
      have hev' : ev = e := hev
      have hsrc' : src = id := hsrc
      subst hev'
      subst hsrc'
      simp [normalizeTransition]
    rw [hser, hnorm]
    exact ⟨rfl, hser⟩
  · have hser : serializeTransition t = .str t.target := by
      unfold serializeTransition
      rw [if_neg hc]
    rw [hser]
    refine ⟨rfl, ?_⟩
    have : serializeTransition
        (normalizeTransition (TransitionDef.str t.target) id e) =
        .str t.target := by
      unfold normalizeTransition serializeTransition
      rw [if_neg]
      simp [condTruthy]
    rw [this]

theorem mem_mapSet_nodup_elim {α : Type} {m : List (String × α)} {k : String}
    {v : α} {p : String × α} (hnd : (keysOf m).Nodup) (h : p ∈ mapSet m k v) :
    p = (k, v) ∨ (p ∈ m ∧ p.1 ≠ k) := by
  induction m with
  | nil =>
      left
      simpa [mapSet] using h
  | cons q rest ih =>
      obtain ⟨a, b⟩ := q
      by_cases ha : a = k
      · subst ha
        simp only [mapSet, if_pos rfl] at h
        rcases List.mem_cons.mp h with rfl | hrest
        · left; rfl
        · right
          refine ⟨List.mem_cons_of_mem _ hrest, ?_⟩
          intro hpk
          have hpm : p.1 ∈ keysOf rest := List.mem_map_of_mem Prod.fst hrest
          exact (List.nodup_cons.mp hnd).1 (hpk ▸ hpm)
      · simp only [mapSet, if_neg ha] at h
        rcases List.mem_cons.mp h with rfl | hrest
        · right
          exact ⟨List.mem_cons_self _ _, ha⟩
        · rcases ih (List.nodup_cons.mp hnd).2 hrest with h' | ⟨hm, hne⟩
          · left; exact h'
          · right; exact ⟨List.mem_cons_of_mem _ hm, hne⟩

theorem mapSet_append_mid {α : Type} (A : List (String × α)) (k : String)
    (v v' : α) (B : List (String × α)) (hk : k ∉ keysOf A) :
    mapSet (A ++ (k, v) :: B) k v' = A ++ (k, v') :: B := by
  induction A with
  | nil => simp [mapSet]
  | cons p rest ih =>
      obtain ⟨a, b⟩ := p
      simp only [keysOf, List.map_cons, List.mem_cons, not_or] at hk
      have ha : ¬a = k := fun h => hk.1 h.symm
      have step : mapSet (((a, b) :: rest) ++ (k, v) :: B) k v' =
          (a, b) :: mapSet (rest ++ (k, v) :: B) k v' := by
        rw [List.cons_append]
        simp only [mapSet, if_neg ha]
      rw [step, ih (by simpa [keysOf] using hk.2), List.cons_append]

theorem edgeFold_ok_compute :
    ∀ (onList : List (String × TransitionDef))
      (ns : List (String × InternalStateNode)) (id : String)
      (n : InternalStateNode),
    (∀ p ∈ onList, p.1 ∉ keysOf n.transitions) →
    (onList.map Prod.fst).Nodup →
    (∀ p ∈ onList, (lookupA ns (normalizeTransition p.2 id p.1).target).isSome) →
    onList.foldlM (addEdge ns id) n =
      .ok { n with
        transitions := n.transitions ++
          onList.map (fun p => (p.1, normalizeTransition p.2 id p.1)),
        outgoing := n.outgoing ++
          onList.map (fun p => normalizeTransition p.2 id p.1) } := by
  intro onList
  induction onList with
  | nil =>
      intro ns id n _ _ _
      simp only [List.map_nil, List.append_nil, List.foldlM_nil]
      rfl
  | cons p rest ih =>
      intro ns id n hfresh hnd htgt
      rw [List.foldlM_cons]
      have hsome := htgt p (List.mem_cons_self _ _)
      have haddr : addEdge ns id n p =
          .ok { n with
            transitions := mapSet n.transitions p.1
              (normalizeTransition p.2 id p.1),
            outgoing := n.outgoing ++ [normalizeTransition p.2 id p.1] } := by
        unfold addEdge
        rw [if_pos hsome]
      rw [haddr, except_ok_bind,
        mapSet_eq_append _ _ _ (hfresh p (List.mem_cons_self _ _))]
      have hnd' : (rest.map Prod.fst).Nodup := (List.nodup_cons.mp hnd).2
      have hfresh' : ∀ q ∈ rest, q.1 ∉ keysOf
          ({ n with
             transitions := n.transitions ++
               [(p.1, normalizeTransition p.2 id p.1)],
             outgoing := n.outgoing ++
               [normalizeTransition p.2 id p.1] } :
            InternalStateNode).transitions := by
        intro q hq
        simp only [keysOf, List.map_append, List.mem_append, List.map_cons,
          List.map_nil, List.mem_singleton, not_or]
        constructor
        · exact fun hc => hfresh q (List.mem_cons_of_mem _ hq)
            (by simpa [keysOf] using hc)
        · intro hc
          exact (List.nodup_cons.mp hnd).1
            (hc ▸ List.mem_map_of_mem Prod.fst hq)
      have htgt' : ∀ q ∈ rest,
          (lookupA ns (normalizeTransition q.2 id q.1).target).isSome :=
        fun q hq => htgt q (List.mem_cons_of_mem _ hq)
      rw [ih ns id _ hfresh' hnd' htgt']
      simp [List.append_assoc]

theorem edgeFold_ok_targets :
    ∀ (onList : List (String × TransitionDef))
      (ns : List (String × InternalStateNode)) (id : String)
      (n n' : InternalStateNode),
    onList.foldlM (addEdge ns id) n = .ok n' →
    ∀ p ∈ onList, (lookupA ns (normalizeTransition p.2 id p.1).target).isSome := by
  intro onList
  induction onList with
  | nil => intro ns id n n' _ p hp; cases hp
  | cons p rest ih =>
      intro ns id n n' h q hq
      rw [List.foldlM_cons] at h
      cases ha : addEdge ns id n p with
      | error e => rw [ha, except_error_bind] at h; cases h
      | ok n1 =>
          rw [ha, except_ok_bind] at h
          rcases List.mem_cons.mp hq with rfl | hq'
          · by_cases hsome :
                (lookupA ns (normalizeTransition q.2 id q.1).target).isSome
            · exact hsome
            · unfold addEdge at ha
              rw [if_neg hsome] at ha
              cases ha
          · exact ih ns id n1 n' h q hq'

theorem normalizeTransition_event (td : TransitionDef) (s e : String) :
    (normalizeTransition td s e).event = e := by
  cases td <;> rfl

theorem normalizeTransition_source (td : TransitionDef) (s e : String) :
    (normalizeTransition td s e).source = s := by
  cases td <;> rfl

theorem statesFold_wf :
    ∀ (rest : List (String × RawStateDef))
      (ns ns' : List (String × InternalStateNode)),
    (keysOf ns).Nodup →
    (rest.map Prod.fst).Nodup →
    (∀ p ∈ rest, p.1 ∈ keysOf ns) →
    (∀ p ∈ rest, (((p.2.on_.getD []).map Prod.fst)).Nodup) →
    (∀ q ∈ ns,
      (q.1 ∈ rest.map Prod.fst → q.2.transitions = [] ∧ q.2.outgoing = []) ∧
      (q.1 ∉ rest.map Prod.fst → NodeWF (keysOf ns) q.1 q.2)) →
    rest.foldlM (fun ns p => processState ns p.1 p.2) ns = .ok ns' →
    keysOf ns' = keysOf ns ∧ ∀ q ∈ ns', NodeWF (keysOf ns') q.1 q.2 := by
  intro rest
  induction rest with
  | nil =>
      intro ns ns' hnd _ _ _ hinv h
      cases h
      exact ⟨rfl, fun q hq => (hinv q hq).2 (by simp)⟩
  | cons p rest ih =>
      intro ns ns' hnd hrnd hrk honnd hinv h
      rw [List.foldlM_cons] at h
      have hpk : p.1 ∈ keysOf ns := hrk p (List.mem_cons_self _ _)
      obtain ⟨n, hn⟩ :=
        Option.isSome_iff_exists.mp ((lookupA_isSome_iff ns p.1).mpr hpk)
      have hmem : (p.1, n) ∈ ns := lookupA_mem hn
      have hempty : n.transitions = [] ∧ n.outgoing = [] :=
        (hinv (p.1, n) hmem).1 (by simp)
      have hp1nr : p.1 ∉ rest.map Prod.fst := (List.nodup_cons.mp hrnd).1
      cases ho : p.2.on_ with
      | none =>
          have hps : processState ns p.1 p.2 = .ok ns := by
            simp only [processState, hn, ho]
          rw [hps, except_ok_bind] at h
          refine ih ns ns' hnd (List.nodup_cons.mp hrnd).2
            (fun q hq => hrk q (List.mem_cons_of_mem _ hq))
            (fun q hq => honnd q (List.mem_cons_of_mem _ hq)) ?_ h
          intro q hq
          refine ⟨fun hq1 => (hinv q hq).1 (by
            simp only [List.map_cons, List.mem_cons]
            exact Or.inr hq1), ?_⟩
          intro hq1
          by_cases hqp : q.1 = p.1
          · have hq2 : q.2 = n := by
              have hl : lookupA ns q.1 = some q.2 :=
                (mem_iff_lookupA hnd q.1 q.2).mp (by rwa [Prod.mk.eta])
              rw [hqp] at hl
              rw [hl] at hn
              exact Option.some.inj hn
            rw [hq2]
            refine ⟨by simp [keysOf, hempty.1], by simp [hempty.1, hempty.2], ?_⟩
            rw [hempty.1]
            intro q' hq'
            cases hq'
          · exact (hinv q hq).2 (by
              simp only [List.map_cons, List.mem_cons, not_or]
              exact ⟨hqp, hq1⟩)
      | some onList =>
          cases hf : onList.foldlM (addEdge ns p.1) n with
          | error e =>
              have hps : processState ns p.1 p.2 = .error e := by
                simp only [processState, hn, ho, hf, except_error_bind]
              rw [hps, except_error_bind] at h
              cases h
          | ok node' =>
              have hps : processState ns p.1 p.2 = .ok (mapSet ns p.1 node') := by
                simp only [processState, hn, ho, hf, except_ok_bind]
              rw [hps, except_ok_bind] at h
              have htgts := edgeFold_ok_targets onList ns p.1 n node' hf
              have honnd' : (onList.map Prod.fst).Nodup := by
                have h1 := honnd p (List.mem_cons_self _ _)
                rw [ho] at h1
                simpa using h1
              have hcompute := edgeFold_ok_compute onList ns p.1 n
                (by
                  rw [hempty.1]
                  intro q hq
                  simp [keysOf])
                honnd' htgts
              have hnode' : node' =
                  { n with
                    transitions := n.transitions ++
                      onList.map (fun q => (q.1, normalizeTransition q.2 p.1 q.1)),
                    outgoing := n.outgoing ++
                      onList.map (fun q => normalizeTransition q.2 p.1 q.1) } := by
                rw [hf] at hcompute
                exact Except.ok.inj hcompute
              have hkeys1 : keysOf (mapSet ns p.1 node') = keysOf ns := by
                rw [keysOf_mapSet, if_pos hpk]
              have hinv1 : ∀ q ∈ mapSet ns p.1 node',
                  (q.1 ∈ rest.map Prod.fst →
                    q.2.transitions = [] ∧ q.2.outgoing = []) ∧
                  (q.1 ∉ rest.map Prod.fst →
                    NodeWF (keysOf (mapSet ns p.1 node')) q.1 q.2) := by
                intro q hq
                rcases mem_mapSet_nodup_elim hnd hq with rfl | ⟨hqns, hqne⟩
                · constructor
                  · intro hc
                    exact absurd hc hp1nr
                  · intro _
                    rw [hnode']
                    refine ⟨?_, ?_, ?_⟩
                    · simp only [keysOf, hempty.1, List.nil_append,
                        List.map_map]
                      have hcomp : (Prod.fst ∘ fun q : String × TransitionDef =>
                          (q.1, normalizeTransition q.2 p.1 q.1)) = Prod.fst := by
                        funext r
                        rfl
                      rw [hcomp]
                      exact honnd'
                    · simp only [hempty.1, hempty.2, List.nil_append,
                        List.map_map]
                      rfl
                    · intro q' hq'
                      simp only [hempty.1, List.nil_append, List.mem_map] at hq'
                      obtain ⟨r, hr, rfl⟩ := hq'
                      refine ⟨normalizeTransition_event r.2 p.1 r.1,
                        normalizeTransition_source r.2 p.1 r.1, ?_⟩
                      rw [← hnode', hkeys1]
                      exact (lookupA_isSome_iff ns _).mp (htgts r hr)
                · constructor
                  · intro hc
                    exact (hinv q hqns).1 (by
                      simp only [List.map_cons, List.mem_cons]
                      exact Or.inr hc)
                  · intro hc
                    have hwfq := (hinv q hqns).2 (by
                      simp only [List.map_cons, List.mem_cons, not_or]
                      exact ⟨hqne, hc⟩)
                    rw [hkeys1]
                    exact hwfq
              obtain ⟨hk', hwfres⟩ := ih (mapSet ns p.1 node') ns'
                (by rw [hkeys1]; exact hnd)
                (List.nodup_cons.mp hrnd).2
                (fun q hq => by
                  rw [hkeys1]
                  exact hrk q (List.mem_cons_of_mem _ hq))
                (fun q hq => honnd q (List.mem_cons_of_mem _ hq)) hinv1 h
              exact ⟨by rw [hk', hkeys1], hwfres⟩

theorem parseMachine_ok_wf {input : ParseInput} {g : StateMachineGraph}
    (hwf : InputWF input) (h : parseMachine input = .ok g) : GraphWF g := by
  obtain ⟨m, initial, sts, hin, hi, hs, hginit, hc, hfold⟩ :=
    parseMachine_ok_inv h
  subst hin
  have hwf' : (sts.map Prod.fst).Nodup ∧
      ∀ p ∈ sts, (((p.2.on_.getD []).map Prod.fst)).Nodup := by
    simp only [InputWF, hs] at hwf
    exact hwf
  have hnd0 : (keysOf (sts.foldl
      (fun ns p => mapSet ns p.1 (mkNode p.1 p.2)) [])).Nodup :=
    nodup_keysOf_pass1 _ sts [] (by simp [keysOf])
  have hkeys0 : ∀ k, k ∈ keysOf (sts.foldl
      (fun ns p => mapSet ns p.1 (mkNode p.1 p.2)) []) ↔
      k ∈ sts.map Prod.fst := by
    intro k
    rw [mem_keysOf_pass1]
    simp [keysOf]
  have hvals0 : ∀ q ∈ (sts.foldl
      (fun ns p => mapSet ns p.1 (mkNode p.1 p.2)) []),
      q.2.transitions = [] ∧ q.2.outgoing = [] := by
    intro q hq
    rcases mem_pass1_elim _ sts [] q hq with h' | ⟨r, hr, rfl⟩
    · cases h'
    · exact ⟨rfl, rfl⟩
  obtain ⟨hkeq, hnodesWF⟩ := statesFold_wf sts _ g.nodes hnd0 hwf'.1
    (fun p hp => (hkeys0 p.1).mpr (List.mem_map_of_mem _ hp))
    (fun p hp => hwf'.2 p hp)
    (fun q hq => ⟨fun _ => hvals0 q hq,
      fun hnot => absurd ((hkeys0 q.1).mp
        (List.mem_map_of_mem Prod.fst hq)) hnot⟩)
    hfold
  refine ⟨hkeq ▸ hnd0, ?_, fun p hp => hnodesWF p hp⟩
  rw [hkeq, hginit]
  exact (lookupA_isSome_iff _ _).mp hc

theorem except_map_ok {ε α β : Type} (a : α) (f : α → β) :
    (Except.ok a : Except ε α).map f = .ok (f a) := rfl

theorem keysOf_mapPair {α β : Type} (A : List (String × α))
    (f : String → α → β) :
    keysOf (A.map (fun p => (p.1, f p.1 p.2))) = A.map Prod.fst := by
  simp only [keysOf, List.map_map]
  apply List.map_congr_left
  intro p _
  rfl

theorem nodeToStateDef_reparsed (id : String) (n : InternalStateNode)
    (hwf : ∀ q ∈ n.transitions, q.2.event = q.1 ∧ q.2.source = id) :
    nodeToStateDef (reparsedNode id n) = nodeToStateDef n := by
  have hmapeq : (n.transitions.map (fun q =>
      (q.1, normalizeTransition (serializeTransition q.2) id q.1))).map
        (fun p => (p.1, serializeTransition p.2)) =
      n.transitions.map (fun p => (p.1, serializeTransition p.2)) := by
    rw [List.map_map]
    apply List.map_congr_left
    intro q hq
    obtain ⟨hev, hsrc⟩ := hwf q hq
    have hrt := roundtripTransition q.2 id q.1 hev hsrc
    simp only [Function.comp_apply]
    rw [hrt.2]
  have hempty_eq : (n.transitions.map (fun q =>
      (q.1, normalizeTransition (serializeTransition q.2) id q.1))).isEmpty =
      n.transitions.isEmpty := by
    cases n.transitions <;> rfl
  simp only [nodeToStateDef, reparsedNode]
  rw [hempty_eq, hmapeq]

theorem pass2_reparse (g : StateMachineGraph) (hwf : GraphWF g) :
    ∀ (suf pre : List (String × InternalStateNode)),
    g.nodes = pre ++ suf →
    ((suf.map (fun p => (p.1, nodeToStateDef p.2))).foldlM
      (fun ns p => processState ns p.1 p.2)
      (pre.map (fun p => (p.1, reparsedNode p.1 p.2)) ++
       suf.map (fun p => (p.1, mkNode p.1 (nodeToStateDef p.2))))) =
    .ok (pre.map (fun p => (p.1, reparsedNode p.1 p.2)) ++
         suf.map (fun p => (p.1, reparsedNode p.1 p.2))) := by
  intro suf
  induction suf with
  | nil =>
      intro pre hsplit
      simp only [List.map_nil, List.append_nil, List.foldlM_nil]
      rfl
  | cons q suf ih =>
      intro pre hsplit
      obtain ⟨id, n⟩ := q
      have hmemg : (id, n) ∈ g.nodes := by
        rw [hsplit]
        exact List.mem_append_right _ (List.mem_cons_self _ _)
      obtain ⟨htrnd, hout, htrprops⟩ := hwf.nodesOk (id, n) hmemg
      have hndall : (keysOf pre ++ id :: keysOf suf).Nodup := by
        have h0 := hwf.keysNodup
        rw [hsplit] at h0
        simpa [keysOf] using h0
      have hidpre : id ∉ keysOf pre := by
        have hdisj := (List.nodup_append.mp hndall).2.2
        intro hc
        exact hdisj hc (List.mem_cons_self _ _)
      have hkeyspre : keysOf (pre.map (fun p => (p.1, reparsedNode p.1 p.2))) =
          pre.map Prod.fst := keysOf_mapPair pre _
      have hlook : lookupA
          (pre.map (fun p => (p.1, reparsedNode p.1 p.2)) ++
            (id, mkNode id (nodeToStateDef n)) ::
              suf.map (fun p => (p.1, mkNode p.1 (nodeToStateDef p.2)))) id =
          some (mkNode id (nodeToStateDef n)) := by
        rw [lookupA_append]
        rw [(lookupA_eq_none_iff _ _).mpr (by rwa [hkeyspre])]
        simp [lookupA_cons]
      have hkeysacc : keysOf
          (pre.map (fun p => (p.1, reparsedNode p.1 p.2)) ++
            (id, mkNode id (nodeToStateDef n)) ::
              suf.map (fun p => (p.1, mkNode p.1 (nodeToStateDef p.2)))) =
          keysOf g.nodes := by
        have h1 : List.map Prod.fst
            (pre.map (fun p => (p.1, reparsedNode p.1 p.2))) =
            List.map Prod.fst pre := keysOf_mapPair pre reparsedNode
        have h2 : List.map Prod.fst
            (suf.map (fun p => (p.1, mkNode p.1 (nodeToStateDef p.2)))) =
            List.map Prod.fst suf :=
          keysOf_mapPair suf (fun a b => mkNode a (nodeToStateDef b))
        rw [hsplit]
        simp only [keysOf, List.map_append, List.map_cons]
        rw [h1, h2]
      simp only [List.map_cons, List.foldlM_cons]
      by_cases htr : n.transitions.isEmpty
      · have htrnil : n.transitions = [] := by
          cases h0 : n.transitions with
          | nil => rfl
          | cons a b => rw [h0] at htr; cases htr
        have hon : (nodeToStateDef n).on_ = none := by
          simp [nodeToStateDef, htr]
        have hps : processState
            (pre.map (fun p => (p.1, reparsedNode p.1 p.2)) ++
              (id, mkNode id (nodeToStateDef n)) ::
                suf.map (fun p => (p.1, mkNode p.1 (nodeToStateDef p.2)))) id
            (nodeToStateDef n) =
            .ok (pre.map (fun p => (p.1, reparsedNode p.1 p.2)) ++
              (id, mkNode id (nodeToStateDef n)) ::
                suf.map (fun p => (p.1, mkNode p.1 (nodeToStateDef p.2)))) := by
          simp only [processState, hlook, hon]
        rw [hps, except_ok_bind]
        have hmk : mkNode id (nodeToStateDef n) = reparsedNode id n := by
          simp [mkNode, nodeToStateDef, reparsedNode, htrnil, htr]
        have hsplit' : g.nodes = (pre ++ [(id, n)]) ++ suf := by
          rw [hsplit]
          simp
        have hres := ih (pre ++ [(id, n)]) hsplit'
        simp only [List.map_append, List.map_cons, List.map_nil,
          List.append_assoc, List.singleton_append] at hres ⊢
        rw [hmk]
        exact hres
      · have hon : (nodeToStateDef n).on_ =
            some (n.transitions.map (fun p => (p.1, serializeTransition p.2))) := by
          simp [nodeToStateDef, htr]
        have hLnd : ((n.transitions.map
            (fun p => (p.1, serializeTransition p.2))).map Prod.fst).Nodup := by
          rw [List.map_map]
          have hcomp : (Prod.fst ∘ fun p : String × InternalTransition =>
              (p.1, serializeTransition p.2)) = Prod.fst := by
            funext r
            rfl
          rw [hcomp]
          exact htrnd
        have htgtsL : ∀ p ∈ n.transitions.map
            (fun p => (p.1, serializeTransition p.2)),
            (lookupA
              (pre.map (fun p => (p.1, reparsedNode p.1 p.2)) ++
                (id, mkNode id (nodeToStateDef n)) ::
                  suf.map (fun p => (p.1, mkNode p.1 (nodeToStateDef p.2))))
              (normalizeTransition p.2 id p.1).target).isSome := by
          intro p hp
          obtain ⟨r, hr, rfl⟩ := List.mem_map.mp hp
          obtain ⟨hev, hsrc, htgtmem⟩ := htrprops r hr
          have hrt := roundtripTransition r.2 id r.1 hev hsrc
          rw [lookupA_isSome_iff, hkeysacc, hrt.1]
          exact htgtmem
        have hcompute := edgeFold_ok_compute
          (n.transitions.map (fun p => (p.1, serializeTransition p.2)))
          (pre.map (fun p => (p.1, reparsedNode p.1 p.2)) ++
            (id, mkNode id (nodeToStateDef n)) ::
              suf.map (fun p => (p.1, mkNode p.1 (nodeToStateDef p.2))))
          id (mkNode id (nodeToStateDef n))
          (by intro p hp; simp [mkNode, keysOf])
          hLnd htgtsL
        have hnodeeq : ({ mkNode id (nodeToStateDef n) with
            transitions := (mkNode id (nodeToStateDef n)).transitions ++
              (n.transitions.map (fun p => (p.1, serializeTransition p.2))).map
                (fun p => (p.1, normalizeTransition p.2 id p.1)),
            outgoing := (mkNode id (nodeToStateDef n)).outgoing ++
              (n.transitions.map (fun p => (p.1, serializeTransition p.2))).map
                (fun p => normalizeTransition p.2 id p.1) } :
              InternalStateNode) = reparsedNode id n := by
          simp [mkNode, nodeToStateDef, reparsedNode, List.map_map]
        rw [hnodeeq] at hcompute
        have hps : processState
            (pre.map (fun p => (p.1, reparsedNode p.1 p.2)) ++
              (id, mkNode id (nodeToStateDef n)) ::
                suf.map (fun p => (p.1, mkNode p.1 (nodeToStateDef p.2)))) id
            (nodeToStateDef n) =
            .ok (mapSet
              (pre.map (fun p => (p.1, reparsedNode p.1 p.2)) ++
                (id, mkNode id (nodeToStateDef n)) ::
                  suf.map (fun p => (p.1, mkNode p.1 (nodeToStateDef p.2))))
              id (reparsedNode id n)) := by
          simp only [processState, hlook, hon, hcompute, except_ok_bind]
        rw [hps, except_ok_bind,
          mapSet_append_mid _ _ _ _ _ (by rwa [hkeyspre])]
        have hsplit' : g.nodes = (pre ++ [(id, n)]) ++ suf := by
          rw [hsplit]
          simp
        have hres := ih (pre ++ [(id, n)]) hsplit'
        simp only [List.map_append, List.map_cons, List.map_nil,
          List.append_assoc, List.singleton_append] at hres ⊢
        exact hres

theorem graphToJSON_reparse (g : StateMachineGraph) (hwf : GraphWF g) :
    parseMachine (.obj (graphToJSON g)) = .ok (reparsedGraph g) := by
  have hndL : ((g.nodes.map (fun p => (p.1, nodeToStateDef p.2))).map
      Prod.fst).Nodup := by
    have hcomp : (Prod.fst ∘ fun p : String × InternalStateNode =>
        (p.1, nodeToStateDef p.2)) = Prod.fst := by
      funext r
      rfl
    rw [List.map_map, hcomp]
    exact hwf.keysNodup
  have hpass1 : (g.nodes.map (fun p => (p.1, nodeToStateDef p.2))).foldl
      (fun ns p => mapSet ns p.1 (mkNode p.1 p.2)) [] =
      g.nodes.map (fun p => (p.1, mkNode p.1 (nodeToStateDef p.2))) := by
    rw [pass1_eq_append _ _ [] hndL (by simp [keysOf])]
    simp [List.map_map]
  have hkeys1 : keysOf (g.nodes.map
      (fun p => (p.1, mkNode p.1 (nodeToStateDef p.2)))) = keysOf g.nodes := by
    have h0 := keysOf_mapPair g.nodes (fun a b => mkNode a (nodeToStateDef b))
    rw [h0]
    rfl
  have hinit : (lookupA (g.nodes.map
      (fun p => (p.1, mkNode p.1 (nodeToStateDef p.2)))) g.initial).isSome := by
    rw [lookupA_isSome_iff, hkeys1]
    exact hwf.initialMem
  have hfold := pass2_reparse g hwf g.nodes [] (by simp)
  simp only [List.map_nil, List.nil_append] at hfold
  simp only [parseMachine, graphToJSON]
  rw [hpass1, if_pos hinit, hfold, except_ok_bind]
  rfl

theorem graphToJSON_reparsedGraph (g : StateMachineGraph) (hwf : GraphWF g) :
    graphToJSON (reparsedGraph g) = graphToJSON g := by
  have hstates : (g.nodes.map (fun p => (p.1, reparsedNode p.1 p.2))).map
      (fun p => (p.1, nodeToStateDef p.2)) =
      g.nodes.map (fun p => (p.1, nodeToStateDef p.2)) := by
    rw [List.map_map]
    apply List.map_congr_left
    intro p hp
    obtain ⟨_, _, hprops⟩ := hwf.nodesOk p hp
    simp only [Function.comp_apply]
    rw [nodeToStateDef_reparsed p.1 p.2
      (fun q hq => ⟨(hprops q hq).1, (hprops q hq).2.1⟩)]
  simp only [graphToJSON, reparsedGraph]
  rw [hstates]

/-- Claim C8: `graphToJSON` is a normalization fixpoint: for every graph
`g` returned by `parseMachine` (on a JSON-object input, whose objects have
unique keys), reparsing `graphToJSON g` succeeds and serializing the
result gives back exactly `graphToJSON g`. -/
theorem graphToJSON_idempotent (input : ParseInput) (g : StateMachineGraph)
    (hwf : InputWF input) (h : parseMachine input = .ok g) :
    (parseMachine (.obj (graphToJSON g))).map graphToJSON =
      .ok (graphToJSON g) := by
  have hg := parseMachine_ok_wf hwf h
  rw [graphToJSON_reparse g hg, except_map_ok,
    graphToJSON_reparsedGraph g hg]

/-- Witness for C8 at the spec's cycle example. -/
theorem graphToJSON_idempotent_witness :
    (parseMachine (.obj (graphToJSON sampleCycleGraph))).map graphToJSON =
      .ok (graphToJSON sampleCycleGraph) :=
  graphToJSON_idempotent sampleCycleInput sampleCycleGraph
    (by simp only [InputWF, sampleCycleInput]; decide) rfl
